import Mathlib

/-
Verification development for the log-cache repository.

The central component is the in-memory envelope store
(src/unnamed/part_000, package store): per-source AVL indexes keyed by
int64 timestamp, a treeStorage ("oldestValueTree") that records each
index under its minimum timestamp for global pruning, and Put / truncate
/ Get operations guarded by one readers-writer lock.

Embedding notes:
* The gods AVL tree is used by the store purely through its sorted-map
  interface (Put, Remove, Left, Size, Root plus in-order traversal).
  We embed an index as its in-order view: a strictly-sorted association
  list `List (Int × Wrapper)`.  Rebalancing changes only the tree shape,
  never the in-order sequence, and `treeTraverse`'s pruning and
  early-exit behaviour depend only on that sequence, so every operation
  the store performs has the same observable result on this embedding.
* Go `int`/`int64` become `Int`; slice lengths are cast to `Int` where
  the source compares them with `int` fields.
* Tree pointers stored in the oldestValueTree are identified by the
  source key under which the tree lives in `indexes`: distinct map
  entries hold distinct trees, so pointer equality coincides with key
  equality on all states the store can reach.
* The wall-clock CachePeriod gauge (a metric computed from time.Now)
  is not modelled; the Expired and Ingress counters are.
-/

namespace LogCache

/-- Kind of payload carried by a loggregator v2 envelope: exactly one of
Log, Counter, Gauge, Timer, Event (or none of them, for a zero-valued
envelope as built by `buildEnvelope` in the tests). -/
inductive EnvKind
  | log
  | counter
  | gauge
  | timer
  | event
  deriving DecidableEq, Repr

/-- Embedding of `loggregator_v2.Envelope`, keeping the fields the store
reads: Timestamp (int64 nanoseconds), SourceId, and which oneof payload
is set. -/
structure Envelope where
  timestamp : Int
  sourceId : String
  message : Option EnvKind
  deriving DecidableEq, Repr

/-- Embedding of `envelopeWrapper`: the stored envelope together with the
index string it was filed under. -/
structure Wrapper where
  e : Envelope
  index : String
  deriving DecidableEq, Repr

/-- A per-source index: the in-order (strictly key-sorted) view of the
gods AVL tree `map[int64]envelopeWrapper`. -/
abbrev Index := List (Int × Wrapper)

/-- Embedding of `avltree.Put` on the in-order view: insert sorted,
overwriting the value when the key is already present. -/
def idxPut (k : Int) (w : Wrapper) : Index → Index
  | [] => [(k, w)]
  | (k', w') :: rest =>
    if k < k' then (k, w) :: (k', w') :: rest
    else if k = k' then (k, w) :: rest
    else (k', w') :: idxPut k w rest

/-- Embedding of `avltree.Remove` on the in-order view: delete the entry
with the given key, if present. -/
def idxRemove (k : Int) : Index → Index
  | [] => []
  | (k', w') :: rest => if k = k' then rest else (k', w') :: idxRemove k rest

/-- Key of `tree.Left()`, the minimum entry (head of the in-order view). -/
def idxMinKey? (t : Index) : Option Int := t.head?.map Prod.fst

/-- Embedding of the `treeStorage` wrapped AVL tree: a strictly
key-sorted association list from int64 timestamp to the bag of trees
registered at that timestamp, each tree identified by its source key in
`indexes`. -/
abbrev TS := List (Int × List String)

/-- Embedding of `treeStorage.Put`: append the tree to the bag at `key`,
creating the bag if absent. -/
def tsPut (k : Int) (n : String) : TS → TS
  | [] => [(k, [n])]
  | (k', v) :: rest =>
    if k < k' then (k, [n]) :: (k', v) :: rest
    else if k = k' then (k', v ++ [n]) :: rest
    else (k', v) :: tsPut k n rest

/-- Removal of the first occurrence of an element from a list, the
semantics of the slice-splice loop in `treeStorage.Remove`. -/
def removeFirst (n : String) : List String → List String
  | [] => []
  | x :: xs => if x = n then xs else x :: removeFirst n xs

/-- Embedding of `treeStorage.Remove`: drop the first occurrence of the
tree from the bag at `key`; if the bag becomes empty the key is removed;
if the key is absent nothing changes. -/
def tsRemove (k : Int) (n : String) : TS → TS
  | [] => []
  | (k', v) :: rest =>
    if k = k' then
      let v' := removeFirst n v
      if v' = [] then rest else (k', v') :: rest
    else (k', v) :: tsRemove k n rest

/-- Embedding of `treeStorage.Left`: the minimum key together with the
first tree of its bag. -/
def tsLeft? (ts : TS) : Option (Int × String) :=
  ts.head?.map (fun p => (p.1, p.2.headD ""))

/-- Lookup in the Go map `indexes`, embedded as an association list with
pairwise-distinct keys. -/
def mapLookup (k : String) : List (String × Index) → Option Index
  | [] => none
  | (k', v) :: rest => if k = k' then some v else mapLookup k rest

/-- Go map store `indexes[k] = v`: replace the binding in place, or add
it when absent. -/
def mapInsert (k : String) (v : Index) : List (String × Index) → List (String × Index)
  | [] => [(k, v)]
  | (k', v') :: rest =>
    if k = k' then (k, v) :: rest else (k', v') :: mapInsert k v rest

/-- Go `delete(indexes, k)`: drop the binding, if present. -/
def mapErase (k : String) : List (String × Index) → List (String × Index)
  | [] => []
  | (k', v') :: rest => if k = k' then rest else (k', v') :: mapErase k rest

/-- Embedding of the `Store` struct: configuration, per-source indexes,
the oldestValueTree, the envelope count and the counter metrics the
claims mention. -/
structure Store where
  size : Int
  maxPerSource : Int
  indexes : List (String × Index)
  ovt : TS
  count : Int
  expired : Nat
  ingress : Nat
  deriving DecidableEq, Repr

/-- Embedding of `NewStore`: empty indexes, empty oldestValueTree, zero
count and zeroed counters. -/
def NewStore (size maxPerSource : Int) : Store :=
  { size := size
    maxPerSource := maxPerSource
    indexes := []
    ovt := []
    count := 0
    expired := 0
    ingress := 0 }

/-- Body of `Store.truncate` after the oldestValueTree pop returned the
entry `(key, name)`: detach the popped tree, remove its entry at `key`
(its minimum under the store invariant), delete the index (under the
source key recorded in the removed wrapper, as the Go code does) when
the tree empties, and otherwise re-register it under its new minimum.
The count decrement and Expired increment that Go performs before the
pop are folded into each resulting record. -/
def truncateBody (s : Store) (key : Int) (name : String) : Store :=
  let ovt' := tsRemove key name s.ovt
  let oldTree := (mapLookup name s.indexes).getD []
  let widx := match oldTree.head? with
    | some p => p.2.index
    | none => ""
  let oldTree' := idxRemove key oldTree
  if oldTree' = [] then
    { s with count := s.count - 1, expired := s.expired + 1, ovt := ovt',
             indexes := mapErase widx s.indexes }
  else
    let newMin := match idxMinKey? oldTree' with
      | some k => k
      | none => 0
    { s with count := s.count - 1, expired := s.expired + 1,
             ovt := tsPut newMin name ovt',
             indexes := mapInsert name oldTree' s.indexes }

/-- Embedding of `Store.truncate`: when `count > size`, remove the
envelope at the globally minimum timestamp (popped from the
oldestValueTree), decrement the count, increment Expired, delete the
index when it empties and otherwise re-register it under its new
minimum.  The `none` branch of the pop mirrors a state where the Go
code would dereference a nil node (a panic); it is unreachable from
reachable stores, which is proved below. -/
def Store.truncate (s : Store) : Store :=
  if s.count ≤ s.size then s
  else
    match tsLeft? s.ovt with
    | none => { s with count := s.count - 1, expired := s.expired + 1 }
    | some (key, name) => truncateBody s key name

/-- Body of `Store.Put` after the index lookup, up to (not including)
the final call to `truncate`: capacity eviction (the Go block guarded by
`preSize >= s.maxPerSource`, which also increments Expired), insertion,
count adjustment by the size delta, and the oldestValueTree fix-up when
the index minimum moved (guarded by `oldest != newOldest && hasOldest`).
`t0` is the tree found in `indexes` (or the freshly created empty one)
and `ovt0` the oldestValueTree after the creation-time registration. -/
def putBody (s : Store) (e : Envelope) (index : String) (t0 : Index) (ovt0 : TS) :
    Store :=
  let hasOldest := t0 ≠ []
  let oldest : Int := match idxMinKey? t0 with
    | some k => k
    | none => 0
  let preSize : Int := (t0.length : Int)
  let t1 := if preSize ≥ s.maxPerSource then idxRemove oldest t0 else t0
  let exp1 : Nat := if preSize ≥ s.maxPerSource then 1 else 0
  let t2 := idxPut e.timestamp ⟨e, index⟩ t1
  let count' := s.count + ((t2.length : Int) - preSize)
  let newOldest : Int := match idxMinKey? t2 with
    | some k => k
    | none => 0
  let ovt1 :=
    if oldest ≠ newOldest ∧ hasOldest
    then tsPut newOldest index (tsRemove oldest index ovt0)
    else ovt0
  { s with indexes := mapInsert index t2 s.indexes
           ovt := ovt1
           count := count'
           expired := s.expired + exp1
           ingress := s.ingress + 1 }

/-- Body of `Store.Put` up to (not including) the final call to
`truncate`: the `t, ok := s.indexes[index]` lookup with lazy creation
(a fresh tree is registered in the oldestValueTree under the incoming
timestamp before insertion), followed by `putBody`.  The ingress counter
increment that opens the Go function is folded into `putBody`. -/
def Store.putRaw (s : Store) (e : Envelope) (index : String) : Store :=
  match mapLookup index s.indexes with
  | some t0 => putBody s e index t0 s.ovt
  | none => putBody s e index [] (tsPut e.timestamp index s.ovt)

/-- Embedding of `Store.Put`: the body above followed by `truncate`
(the CachePeriod gauge update that closes the Go function is a pure
metric emission and is not modelled). -/
def Store.put (s : Store) (e : Envelope) (index : String) : Store :=
  (s.putRaw e index).truncate

/-- Stores reachable from `NewStore` by a finite sequence of Put calls. -/
inductive Reachable : Store → Prop
  | new (size maxPerSource : Int) : Reachable (NewStore size maxPerSource)
  | put {s : Store} (e : Envelope) (index : String) :
      Reachable s → Reachable (s.put e index)

/-- Embedding of the `EnvelopeType interface{}` filter argument of Get:
`none` is the Go nil, the five marker constructors are the five pointer
types the switch recognises, and `other` stands for a value of any other
dynamic type, which drives the switch into its panicking default arm. -/
inductive FilterType
  | log
  | counter
  | gauge
  | timer
  | event
  | other
  deriving DecidableEq, Repr

/-- Embedding of `Store.checkEnvelopeType`; the panicking default arm
becomes an `Except.error`. -/
def checkEnvelopeType (e : Envelope) : Option FilterType → Except String Bool
  | none => .ok true
  | some .log => .ok (e.message = some .log)
  | some .counter => .ok (e.message = some .counter)
  | some .gauge => .ok (e.message = some .gauge)
  | some .timer => .ok (e.message = some .timer)
  | some .event => .ok (e.message = some .event)
  | some .other => .error "unknown type"

/-- Embedding of `treeTraverse` combined with the visitor closure built
in `Get`, acting on the in-order tail of entries whose key is at least
`start`.  Each visited entry: stop (returning the accumulated result)
when its key has reached `end`; otherwise append the envelope when it
was filed under the requested index and passes the type filter (the Go
`&&` short-circuit means the filter runs only when the index matches),
then stop as soon as the accumulated length has reached `limit`. -/
def getLoop (index : String) (ft : Option FilterType) (endT : Int) (limit : Int) :
    Index → List Envelope → Except String (List Envelope)
  | [], res => .ok res
  | (k, w) :: rest, res =>
    if endT ≤ k then .ok res
    else
      match (if w.index = index then checkEnvelopeType w.e ft else .ok false) with
      | .error msg => .error msg
      | .ok c =>
        let res' := if c then res ++ [w.e] else res
        if limit ≤ (res'.length : Int) then .ok res'
        else getLoop index ft endT limit rest res'

/-- Embedding of `Store.Get`: no index means an empty result; otherwise
traverse the index over `[start, end)` in ascending order with the
visitor above.  A filter value outside the five recognised types
surfaces the Go panic as an `Except.error`. -/
def Store.get (s : Store) (index : String) (startT endT : Int)
    (ft : Option FilterType) (limit : Int) : Except String (List Envelope) :=
  match mapLookup index s.indexes with
  | none => .ok []
  | some t => getLoop index ft endT limit (t.dropWhile (fun p => decide (p.1 < startT))) []

/-- CRC-64 polynomial in reversed (little-endian) bit order, the value
of Go's `crc64.ECMA` table builder. -/
def crc64Poly : Nat := 0xC96C5795D7870F42

/-- One bit of the reflected CRC-64 feedback shift. -/
def crc64Round (crc : Nat) : Nat :=
  if crc % 2 = 1 then (crc >>> 1) ^^^ crc64Poly else crc >>> 1

/-- Iterated feedback rounds. -/
def crc64Rounds : Nat → Nat → Nat
  | 0, crc => crc
  | n + 1, crc => crc64Rounds n (crc64Round crc)

/-- Absorb one input byte: xor into the low byte, then eight feedback
rounds — the bitwise form of Go's table lookup
`tab[byte(crc)^b] ^ (crc >> 8)`. -/
def crc64Update (crc b : Nat) : Nat := crc64Rounds 8 (crc ^^^ b)

/-- Embedding of Go `crc64.Checksum(data, crc64.MakeTable(crc64.ECMA))`:
start from all-ones, absorb every byte, complement at the end. -/
def crc64 (bytes : List Nat) : Nat :=
  bytes.foldl crc64Update 0xFFFFFFFFFFFFFFFF ^^^ 0xFFFFFFFFFFFFFFFF

/-- Routing hash of `cmd/nozzle/main.go setupRouting`: CRC-64/ECMA over
the UTF-8 bytes of the source id.  Source ids here are ASCII, where the
UTF-8 encoding is the code-point sequence itself, so the byte sequence
is taken from the characters directly. -/
def sourceHash (s : String) : Nat := crc64 (s.data.map Char.toNat)

/-- Modelled from the spec: the descending traversal used by the
six-argument `Store.Get` that `store_test.go` exercises.  That Store
version is not under src/ (part_000 carries the ascending-only,
five-argument Get), so the visitor is taken from spec 4.A/4.B: scan the
index over `[start, end)` in descending order, accumulate envelopes that
pass the type filter, stop once `limit` envelopes have accumulated. -/
def descLoop (index : String) (ft : Option FilterType) (limit : Int) :
    Index → List Envelope → Except String (List Envelope)
  | [], res => .ok res
  | (_, w) :: rest, res =>
    match (if w.index = index then checkEnvelopeType w.e ft else .ok false) with
    | .error msg => .error msg
    | .ok c =>
      let res' := if c then res ++ [w.e] else res
      if limit ≤ (res'.length : Int) then .ok res'
      else descLoop index ft limit rest res'

/-- Modelled from the spec: descending `Store.Get` (see `descLoop`).
No index yields an empty result; otherwise the entries of `[start, end)`
are visited newest first. -/
def Store.getDesc (s : Store) (index : String) (startT endT : Int)
    (ft : Option FilterType) (limit : Int) : Except String (List Envelope) :=
  match mapLookup index s.indexes with
  | none => .ok []
  | some t =>
    descLoop index ft limit
      ((t.filter (fun p => decide (startT ≤ p.1) && decide (p.1 < endT))).reverse) []

/-- Embedding of `logcache_v1.SendRequest`, keeping the fields the
routing layer sets: the envelope batch and the LocalOnly flag. -/
structure SendRequest where
  localOnly : Bool
  envelopes : List Envelope
  deriving DecidableEq, Repr

/-- Embedding of the empty `logcache_v1.SendResponse`. -/
structure SendResponse where
  deriving DecidableEq, Repr

/-- The unary peer RPC that `BatchedIngressClient.write` issues: the
per-call context timeout (nanoseconds) together with the request value. -/
structure PeerCall where
  timeoutNs : Int
  req : SendRequest
  deriving DecidableEq, Repr

/-- The call constructed by `BatchedIngressClient.write`
(src/unnamed/part_003): a 3-second context timeout and a SendRequest
with LocalOnly set to true carrying the flushed batch. -/
def writeCall (batch : List Envelope) : PeerCall :=
  { timeoutNs := 3 * 1000000000, req := { localOnly := true, envelopes := batch } }

/-- Handling of the peer RPC result inside `write`: an error is logged
with the "failed to write envelope" prefix, a success logs nothing;
either way the function returns, so the flusher loop in `start`
proceeds to the next batch. -/
def writeHandle : Except String SendResponse → List String
  | .error msg => ["failed to write envelope: " ++ msg]
  | .ok _ => []

/-- Embedding of `BatchedIngressClient.write`: issue the peer call built
by `writeCall` through the supplied client and handle the result,
returning the log lines emitted. -/
def write (send : PeerCall → Except String SendResponse) (batch : List Envelope) :
    List String :=
  writeHandle (send (writeCall batch))

/-- Modelled from the spec: the go-diodes OneToOne ring wrapped by
`BatchedIngressClient` is a third-party dependency not under src/; the
spec fixes its contract to a bounded lossy ring that, on overflow, drops
the oldest pending envelope, counts the drop through the alert callback
installed by `NewBatchedIngressClient` (which adds to the
dropped-envelopes counter) and logs a summary line. -/
structure Ring where
  cap : Nat
  buf : List Envelope
  dropped : Nat
  logs : List String
  deriving DecidableEq, Repr

/-- Single push onto the bounded lossy ring: append when below capacity,
otherwise drop the oldest entry, count it and log the summary. -/
def ringPush (r : Ring) (e : Envelope) : Ring :=
  if r.buf.length < r.cap then { r with buf := r.buf ++ [e] }
  else
    { r with buf := r.buf.tail ++ [e]
             dropped := r.dropped + 1
             logs := r.logs ++ ["dropped 1 envelopes"] }

/-- Ring state installed by `NewBatchedIngressClient`: capacity 10000,
nothing buffered, no drops. -/
def newRing : Ring := { cap := 10000, buf := [], dropped := 0, logs := [] }

/-- Embedding of `BatchedIngressClient.Send`: push every envelope of the
request onto the ring, then return the empty SendResponse and a nil
error unconditionally. -/
def clientSend (r : Ring) (req : SendRequest) : Ring × SendResponse × Option String :=
  (req.envelopes.foldl ringPush r, {}, none)

/-- Strictly increasing keys, the shape of an in-order AVL view. -/
def sortedKeys {α : Type} (l : List (Int × α)) : Prop :=
  l.Pairwise (fun a b => a.1 < b.1)

/-- Every tree handle registered anywhere in the treeStorage, with
multiplicity. -/
def ovtNames : TS → List String
  | [] => []
  | p :: rest => p.2 ++ ovtNames rest

/-- Total number of stored envelopes, as the Go `count` bookkeeping
should reflect it. -/
def sumLens (m : List (String × Index)) : Int :=
  (m.map (fun q => (q.2.length : Int))).sum

/-- Well-formedness of one per-source index entry: non-empty, strictly
sorted, and every wrapper records the index key it is filed under and
the timestamp it is keyed by. -/
def goodIndex (name : String) (t : Index) : Prop :=
  t ≠ [] ∧ sortedKeys t ∧ ∀ p ∈ t, p.2.index = name ∧ p.2.e.timestamp = p.1

/-- The store invariant maintained by Put and truncate: distinct source
keys, well-formed indexes, exact count bookkeeping, a sorted
oldestValueTree with non-empty bags whose registrations are exactly one
per live index and point at that index's minimum key, and the
per-source capacity bound whenever the configured capacity is at least
one. -/
structure Inv (s : Store) : Prop where
  keysNodup : (s.indexes.map Prod.fst).Nodup
  good : ∀ q ∈ s.indexes, goodIndex q.1 q.2
  countEq : s.count = sumLens s.indexes
  ovtSorted : sortedKeys s.ovt
  bagsNonempty : ∀ p ∈ s.ovt, p.2 ≠ []
  namesNodup : (ovtNames s.ovt).Nodup
  regValid : ∀ p ∈ s.ovt, ∀ n ∈ p.2,
    ∃ t, mapLookup n s.indexes = some t ∧ idxMinKey? t = some p.1
  regAll : ∀ q ∈ s.indexes, ∃ p ∈ s.ovt, q.1 ∈ p.2
  maxBound : 1 ≤ s.maxPerSource →
    ∀ q ∈ s.indexes, (q.2.length : Int) ≤ s.maxPerSource

section IndexLemmas

lemma sortedKeys_nil {α : Type} : sortedKeys ([] : List (Int × α)) := by
  simp [sortedKeys]

lemma sortedKeys_cons {α : Type} {p : Int × α} {rest : List (Int × α)} :
    sortedKeys (p :: rest) ↔ (∀ q ∈ rest, p.1 < q.1) ∧ sortedKeys rest := by
  simp [sortedKeys, List.pairwise_cons]

lemma sortedKeys_head_le {α : Type} {k : Int} {w : α} {rest : List (Int × α)}
    (hs : sortedKeys ((k, w) :: rest)) {p : Int × α} (hp : p ∈ (k, w) :: rest) :
    k ≤ p.1 := by
  rcases List.mem_cons.mp hp with h | h
  · simp [h]
  · exact le_of_lt ((sortedKeys_cons.mp hs).1 p h)

lemma idxPut_ne_nil (k : Int) (w : Wrapper) (t : Index) : idxPut k w t ≠ [] := by
  cases t with
  | nil => simp [idxPut]
  | cons p rest =>
    obtain ⟨k', w'⟩ := p
    simp only [idxPut]
    split
    · simp
    · split <;> simp

lemma mem_idxPut_self (k : Int) (w : Wrapper) (t : Index) : (k, w) ∈ idxPut k w t := by
  induction t with
  | nil => simp [idxPut]
  | cons p rest ih =>
    obtain ⟨k', w'⟩ := p
    simp only [idxPut]
    split
    · simp
    · split
      · simp
      · simpa using Or.inr ih

lemma mem_idxPut {k : Int} {w : Wrapper} {t : Index} (hs : sortedKeys t)
    {p : Int × Wrapper} (hp : p ∈ idxPut k w t) :
    p = (k, w) ∨ (p ∈ t ∧ p.1 ≠ k) := by
  induction t with
  | nil => simp [idxPut] at hp; simp [hp]
  | cons q rest ih =>
    obtain ⟨k', w'⟩ := q
    simp only [idxPut] at hp
    split at hp
    · rename_i hlt
      rcases List.mem_cons.mp hp with h | h
      · exact Or.inl h
      · refine Or.inr ⟨h, ?_⟩
        have hk' : k' ≤ p.1 := sortedKeys_head_le hs h
        omega
    · split at hp
      · rename_i hne heq
        rcases List.mem_cons.mp hp with h | h
        · exact Or.inl h
        · refine Or.inr ⟨List.mem_cons_of_mem _ h, ?_⟩
          have hk' : k' < p.1 := (sortedKeys_cons.mp hs).1 p h
          omega
      · rename_i hne hneq
        rcases List.mem_cons.mp hp with h | h
        · refine Or.inr ⟨by simp [h], ?_⟩
          subst h
          simp only
          omega
        · rcases ih (sortedKeys_cons.mp hs).2 h with h' | h'
          · exact Or.inl h'
          · exact Or.inr ⟨List.mem_cons_of_mem _ h'.1, h'.2⟩

lemma idxPut_sorted {k : Int} {w : Wrapper} {t : Index} (hs : sortedKeys t) :
    sortedKeys (idxPut k w t) := by
  induction t with
  | nil => simp [idxPut, sortedKeys]
  | cons q rest ih =>
    obtain ⟨k', w'⟩ := q
    have hrest := (sortedKeys_cons.mp hs).2
    have hhead := (sortedKeys_cons.mp hs).1
    simp only [idxPut]
    split
    · rename_i hlt
      refine sortedKeys_cons.mpr ⟨?_, hs⟩
      intro q hq
      rcases List.mem_cons.mp hq with h | h
      · simp [h]; omega
      · have := hhead q h; simp only; omega
    · split
      · rename_i hne heq
        refine sortedKeys_cons.mpr ⟨?_, hrest⟩
        intro q hq
        have := hhead q hq
        simp only
        omega
      · rename_i hne hneq
        refine sortedKeys_cons.mpr ⟨?_, ih hrest⟩
        intro q hq
        rcases mem_idxPut hrest hq with h | h
        · subst h; simp only; omega
        · exact hhead q h.1

lemma idxMinKey?_idxPut_nil (k : Int) (w : Wrapper) :
    idxMinKey? (idxPut k w []) = some k := rfl

lemma idxMinKey?_idxPut_cons (k : Int) (w : Wrapper) (k' : Int) (w' : Wrapper)
    (rest : Index) :
    idxMinKey? (idxPut k w ((k', w') :: rest)) = some (if k ≤ k' then k else k') := by
  simp only [idxPut]
  split_ifs <;> simp [idxMinKey?] <;> omega

lemma idxPut_length_le (k : Int) (w : Wrapper) (t : Index) :
    (idxPut k w t).length ≤ t.length + 1 := by
  induction t with
  | nil => simp [idxPut]
  | cons q rest ih =>
    obtain ⟨k', w'⟩ := q
    simp only [idxPut]
    split
    · simp
    · split
      · simp
      · simpa using Nat.succ_le_succ ih

lemma idxRemove_sublist (k : Int) (t : Index) : List.Sublist (idxRemove k t) t := by
  induction t with
  | nil => simp [idxRemove]
  | cons q rest ih =>
    obtain ⟨k', w'⟩ := q
    simp only [idxRemove]
    split
    · exact (List.Sublist.refl rest).cons _
    · exact ih.cons₂ _

lemma mem_idxRemove_of {k : Int} {t : Index} {p : Int × Wrapper}
    (hp : p ∈ t) (hne : p.1 ≠ k) : p ∈ idxRemove k t := by
  induction t with
  | nil => simp at hp
  | cons q rest ih =>
    obtain ⟨k', w'⟩ := q
    simp only [idxRemove]
    rcases List.mem_cons.mp hp with h | h
    · split
      · rename_i he
        subst h
        simp only at hne
        omega
      · simp [h]
    · split
      · exact h
      · exact List.mem_cons_of_mem _ (ih h)

lemma idxRemove_sorted {k : Int} {t : Index} (hs : sortedKeys t) :
    sortedKeys (idxRemove k t) :=
  List.Pairwise.sublist (idxRemove_sublist k t) hs

lemma idxRemove_head (k : Int) (w : Wrapper) (rest : Index) :
    idxRemove k ((k, w) :: rest) = rest := by
  simp [idxRemove]

lemma mem_of_mem_idxRemove {k : Int} {t : Index} {p : Int × Wrapper}
    (hp : p ∈ idxRemove k t) : p ∈ t :=
  (idxRemove_sublist k t).mem hp

lemma mem_dropWhile_ge {α : Type} {a : Int} {t : List (Int × α)} (hs : sortedKeys t)
    {p : Int × α} (hp : p ∈ t.dropWhile (fun q => decide (q.1 < a))) : a ≤ p.1 := by
  induction t with
  | nil => simp [List.dropWhile] at hp
  | cons q rest ih =>
    rw [List.dropWhile_cons] at hp
    split at hp
    · exact ih (sortedKeys_cons.mp hs).2 hp
    · rename_i hfail
      simp only [decide_eq_true_eq] at hfail
      rcases List.mem_cons.mp hp with h | h
      · subst h; omega
      · have := (sortedKeys_cons.mp hs).1 p h
        omega

lemma dropWhile_sublist' {α : Type} (pr : Int × α → Bool) (t : List (Int × α)) :
    List.Sublist (t.dropWhile pr) t := by
  induction t with
  | nil => simp [List.dropWhile]
  | cons q rest ih =>
    rw [List.dropWhile_cons]
    split
    · exact ih.cons _
    · exact List.Sublist.refl _

end IndexLemmas

section MapLemmas

lemma mapLookup_eq_none {k : String} {m : List (String × Index)} :
    mapLookup k m = none ↔ k ∉ m.map Prod.fst := by
  induction m with
  | nil => simp [mapLookup]
  | cons q rest ih =>
    obtain ⟨k', v'⟩ := q
    simp only [mapLookup, List.map_cons, List.mem_cons]
    split
    · rename_i h
      simp [h]
    · rename_i h
      simp [h, ih]

lemma mapLookup_some_mem {k : String} {m : List (String × Index)} {t : Index}
    (h : mapLookup k m = some t) : (k, t) ∈ m := by
  induction m with
  | nil => simp [mapLookup] at h
  | cons q rest ih =>
    obtain ⟨k', v'⟩ := q
    simp only [mapLookup] at h
    split at h
    · rename_i he
      subst he
      simp only [Option.some.injEq] at h
      simp [h]
    · exact List.mem_cons_of_mem _ (ih h)

lemma mem_mapLookup {k : String} {t : Index} {m : List (String × Index)}
    (hnd : (m.map Prod.fst).Nodup) (hm : (k, t) ∈ m) : mapLookup k m = some t := by
  induction m with
  | nil => simp at hm
  | cons q rest ih =>
    obtain ⟨k', v'⟩ := q
    simp only [List.map_cons, List.nodup_cons] at hnd
    rcases List.mem_cons.mp hm with h | h
    · obtain ⟨h1, h2⟩ := Prod.mk.injEq .. ▸ h
      simp [mapLookup, h1.symm, h2]
    · have hk : k ≠ k' := by
        intro he
        exact hnd.1 (he ▸ List.mem_map_of_mem Prod.fst h)
      simp only [mapLookup, if_neg hk]
      exact ih hnd.2 h

lemma mapLookup_mapInsert_self (k : String) (v : Index) (m : List (String × Index)) :
    mapLookup k (mapInsert k v m) = some v := by
  induction m with
  | nil => simp [mapInsert, mapLookup]
  | cons q rest ih =>
    obtain ⟨k', v'⟩ := q
    simp only [mapInsert]
    split
    · simp [mapLookup]
    · rename_i h
      simp only [mapLookup, if_neg h]
      exact ih

lemma mapLookup_mapInsert_ne {k' k : String} (h : k' ≠ k) (v : Index)
    (m : List (String × Index)) :
    mapLookup k' (mapInsert k v m) = mapLookup k' m := by
  induction m with
  | nil => simp [mapInsert, mapLookup, h]
  | cons q rest ih =>
    obtain ⟨k'', v''⟩ := q
    simp only [mapInsert]
    split
    · rename_i he
      subst he
      simp [mapLookup, h]
    · simp only [mapLookup]
      split
      · rfl
      · exact ih

lemma mapLookup_mapErase_ne {k' k : String} (h : k' ≠ k)
    (m : List (String × Index)) :
    mapLookup k' (mapErase k m) = mapLookup k' m := by
  induction m with
  | nil => simp [mapErase]
  | cons q rest ih =>
    obtain ⟨k'', v''⟩ := q
    simp only [mapErase]
    split
    · rename_i he
      subst he
      simp [mapLookup, h]
    · simp only [mapLookup]
      split
      · rfl
      · exact ih

lemma mapErase_keys_not_mem {k : String} {m : List (String × Index)}
    (hnd : (m.map Prod.fst).Nodup) : k ∉ (mapErase k m).map Prod.fst := by
  induction m with
  | nil => simp [mapErase]
  | cons q rest ih =>
    obtain ⟨k', v'⟩ := q
    simp only [List.map_cons, List.nodup_cons] at hnd
    simp only [mapErase]
    split
    · rename_i he
      subst he
      intro hk
      obtain ⟨p, hp, hpk⟩ := List.mem_map.mp hk
      exact hnd.1 (hpk ▸ List.mem_map_of_mem Prod.fst hp)
    · rename_i he
      simp only [List.map_cons, List.mem_cons]
      rintro (h | h)
      · exact he h
      · exact ih hnd.2 h

lemma mapLookup_mapErase_self {k : String} {m : List (String × Index)}
    (hnd : (m.map Prod.fst).Nodup) : mapLookup k (mapErase k m) = none :=
  mapLookup_eq_none.mpr (mapErase_keys_not_mem hnd)

lemma mapInsert_keys_of_mem {k : String} {v : Index} {m : List (String × Index)}
    (h : k ∈ m.map Prod.fst) :
    (mapInsert k v m).map Prod.fst = m.map Prod.fst := by
  induction m with
  | nil => simp at h
  | cons q rest ih =>
    obtain ⟨k', v'⟩ := q
    simp only [mapInsert]
    split
    · rename_i he
      simp [he]
    · rename_i he
      simp only [List.map_cons, List.mem_cons] at h
      rcases h with h | h
      · exact absurd h he
      · simp [ih h]

lemma mapInsert_of_not_mem {k : String} {v : Index} {m : List (String × Index)}
    (h : k ∉ m.map Prod.fst) : mapInsert k v m = m ++ [(k, v)] := by
  induction m with
  | nil => simp [mapInsert]
  | cons q rest ih =>
    obtain ⟨k', v'⟩ := q
    simp only [List.map_cons, List.mem_cons] at h
    push_neg at h
    simp only [mapInsert, if_neg h.1]
    simp [ih h.2]

lemma mapErase_sublist (k : String) (m : List (String × Index)) :
    List.Sublist (mapErase k m) m := by
  induction m with
  | nil => simp [mapErase]
  | cons q rest ih =>
    obtain ⟨k', v'⟩ := q
    simp only [mapErase]
    split
    · exact (List.Sublist.refl rest).cons _
    · exact ih.cons₂ _

lemma mem_mapInsert {k : String} {v : Index} {m : List (String × Index)}
    {q : String × Index} (hnd : (m.map Prod.fst).Nodup) (hq : q ∈ mapInsert k v m) :
    q = (k, v) ∨ (q ∈ m ∧ q.1 ≠ k) := by
  induction m with
  | nil => simp [mapInsert] at hq; simp [hq]
  | cons p rest ih =>
    obtain ⟨k', v'⟩ := p
    simp only [List.map_cons, List.nodup_cons] at hnd
    simp only [mapInsert] at hq
    split at hq
    · rename_i he
      subst he
      rcases List.mem_cons.mp hq with h | h
      · exact Or.inl h
      · refine Or.inr ⟨List.mem_cons_of_mem _ h, ?_⟩
        intro hk
        exact hnd.1 (hk ▸ List.mem_map_of_mem Prod.fst h)
    · rename_i he
      rcases List.mem_cons.mp hq with h | h
      · subst h
        exact Or.inr ⟨List.mem_cons_self _ _, fun hk => he (hk ▸ rfl)⟩
      · rcases ih hnd.2 h with h' | h'
        · exact Or.inl h'
        · exact Or.inr ⟨List.mem_cons_of_mem _ h'.1, h'.2⟩

lemma mem_mapErase_of {k : String} {m : List (String × Index)} {q : String × Index}
    (hq : q ∈ m) (hne : q.1 ≠ k) : q ∈ mapErase k m := by
  induction m with
  | nil => simp at hq
  | cons p rest ih =>
    obtain ⟨k', v'⟩ := p
    simp only [mapErase]
    rcases List.mem_cons.mp hq with h | h
    · split
      · rename_i he
        subst h
        exact absurd he.symm hne
      · simp [h]
    · split
      · exact h
      · exact List.mem_cons_of_mem _ (ih h)

lemma sumLens_nil : sumLens [] = 0 := rfl

lemma sumLens_cons (q : String × Index) (m : List (String × Index)) :
    sumLens (q :: m) = (q.2.length : Int) + sumLens m := by
  simp [sumLens]

lemma sumLens_nonneg (m : List (String × Index)) : 0 ≤ sumLens m := by
  induction m with
  | nil => simp [sumLens]
  | cons q rest ih =>
    rw [sumLens_cons]
    positivity

lemma sumLens_append (a b : List (String × Index)) :
    sumLens (a ++ b) = sumLens a + sumLens b := by
  simp [sumLens]

lemma sumLens_mapInsert_some {k : String} {v t : Index} {m : List (String × Index)}
    (h : mapLookup k m = some t) :
    sumLens (mapInsert k v m) = sumLens m - (t.length : Int) + (v.length : Int) := by
  induction m with
  | nil => simp [mapLookup] at h
  | cons q rest ih =>
    obtain ⟨k', v'⟩ := q
    simp only [mapLookup] at h
    simp only [mapInsert]
    split
    · rename_i he
      rw [if_pos he] at h
      simp only [Option.some.injEq] at h
      subst h
      rw [sumLens_cons, sumLens_cons]
      ring
    · rename_i he
      rw [if_neg he] at h
      rw [sumLens_cons, sumLens_cons, ih h]
      ring

lemma sumLens_mapInsert_none {k : String} {v : Index} {m : List (String × Index)}
    (h : mapLookup k m = none) :
    sumLens (mapInsert k v m) = sumLens m + (v.length : Int) := by
  rw [mapInsert_of_not_mem (mapLookup_eq_none.mp h), sumLens_append, sumLens_cons,
    sumLens_nil]
  ring

lemma sumLens_mapErase {k : String} {t : Index} {m : List (String × Index)}
    (h : mapLookup k m = some t) :
    sumLens (mapErase k m) = sumLens m - (t.length : Int) := by
  induction m with
  | nil => simp [mapLookup] at h
  | cons q rest ih =>
    obtain ⟨k', v'⟩ := q
    simp only [mapLookup] at h
    simp only [mapErase]
    split
    · rename_i he
      rw [if_pos he] at h
      simp only [Option.some.injEq] at h
      subst h
      rw [sumLens_cons]
      ring
    · rename_i he
      rw [if_neg he] at h
      rw [sumLens_cons, sumLens_cons, ih h]
      ring

lemma entry_le_sumLens {m : List (String × Index)} {q : String × Index} (hq : q ∈ m) :
    (q.2.length : Int) ≤ sumLens m := by
  induction m with
  | nil => simp at hq
  | cons p rest ih =>
    rw [sumLens_cons]
    rcases List.mem_cons.mp hq with h | h
    · subst h
      have := sumLens_nonneg rest
      omega
    · have h1 := ih h
      have h2 : (0 : Int) ≤ (p.2.length : Int) := by positivity
      omega

end MapLemmas

section TsLemmas

lemma ovtNames_nil : ovtNames [] = [] := rfl

lemma ovtNames_cons (p : Int × List String) (rest : TS) :
    ovtNames (p :: rest) = p.2 ++ ovtNames rest := rfl

lemma mem_ovtNames {m : String} {ts : TS} :
    m ∈ ovtNames ts ↔ ∃ p ∈ ts, m ∈ p.2 := by
  induction ts with
  | nil => simp [ovtNames]
  | cons q rest ih =>
    simp only [ovtNames_cons, List.mem_append, List.mem_cons, ih]
    constructor
    · rintro (h | ⟨p, hp, hm⟩)
      · exact ⟨q, Or.inl rfl, h⟩
      · exact ⟨p, Or.inr hp, hm⟩
    · rintro ⟨p, hp | hp, hm⟩
      · subst hp
        exact Or.inl hm
      · exact Or.inr ⟨p, hp, hm⟩

lemma mem_tsPut {k : Int} {n : String} {ts : TS} {q : Int × List String}
    (hq : q ∈ tsPut k n ts) : q.1 = k ∨ q ∈ ts := by
  induction ts with
  | nil => simp [tsPut] at hq; simp [hq]
  | cons p rest ih =>
    obtain ⟨k', v⟩ := p
    simp only [tsPut] at hq
    split at hq
    · rcases List.mem_cons.mp hq with h | h
      · simp [h]
      · exact Or.inr h
    · split at hq
      · rename_i hne he
        rcases List.mem_cons.mp hq with h | h
        · subst h
          exact Or.inl he.symm
        · exact Or.inr (List.mem_cons_of_mem _ h)
      · rcases List.mem_cons.mp hq with h | h
        · exact Or.inr (by simp [h])
        · rcases ih h with h' | h'
          · exact Or.inl h'
          · exact Or.inr (List.mem_cons_of_mem _ h')

lemma tsPut_sorted {k : Int} {n : String} {ts : TS} (hs : sortedKeys ts) :
    sortedKeys (tsPut k n ts) := by
  induction ts with
  | nil => simp [tsPut, sortedKeys]
  | cons p rest ih =>
    obtain ⟨k', v⟩ := p
    have hrest := (sortedKeys_cons.mp hs).2
    have hhead := (sortedKeys_cons.mp hs).1
    simp only [tsPut]
    split
    · rename_i hlt
      refine sortedKeys_cons.mpr ⟨?_, hs⟩
      intro q hq
      rcases List.mem_cons.mp hq with h | h
      · simp [h]; omega
      · have := hhead q h
        simp only
        omega
    · split
      · rename_i hne he
        exact sortedKeys_cons.mpr ⟨fun q hq => hhead q hq, hrest⟩
      · rename_i hne hneq
        refine sortedKeys_cons.mpr ⟨?_, ih hrest⟩
        intro q hq
        rcases mem_tsPut hq with h | h
        · rw [h]
          omega
        · exact hhead q h

lemma tsPut_reg (k : Int) (n : String) (ts : TS) :
    ∃ p ∈ tsPut k n ts, p.1 = k ∧ n ∈ p.2 := by
  induction ts with
  | nil => exact ⟨(k, [n]), by simp [tsPut]⟩
  | cons p rest ih =>
    obtain ⟨k', v⟩ := p
    simp only [tsPut]
    split
    · exact ⟨(k, [n]), by simp⟩
    · split
      · rename_i hne he
        exact ⟨(k', v ++ [n]), by simp [he]⟩
      · obtain ⟨p, hp, h1, h2⟩ := ih
        exact ⟨p, List.mem_cons_of_mem _ hp, h1, h2⟩

lemma tsPut_preserves_reg {k : Int} {n : String} {ts : TS} {q : Int × List String}
    {m : String} (hq : q ∈ ts) (hm : m ∈ q.2) :
    ∃ p ∈ tsPut k n ts, p.1 = q.1 ∧ m ∈ p.2 := by
  induction ts with
  | nil => simp at hq
  | cons p rest ih =>
    obtain ⟨k', v⟩ := p
    simp only [tsPut]
    split
    · exact ⟨q, List.mem_cons_of_mem _ hq, rfl, hm⟩
    · split
      · rename_i hne he
        rcases List.mem_cons.mp hq with h | h
        · subst h
          exact ⟨(k', v ++ [n]), List.mem_cons_self _ _, rfl, by simp [hm]⟩
        · exact ⟨q, List.mem_cons_of_mem _ h, rfl, hm⟩
      · rcases List.mem_cons.mp hq with h | h
        · subst h
          exact ⟨(k', v), List.mem_cons_self _ _, rfl, hm⟩
        · obtain ⟨p, hp, h1, h2⟩ := ih h
          exact ⟨p, List.mem_cons_of_mem _ hp, h1, h2⟩

lemma mem_tsPut_src {k : Int} {n : String} {ts : TS} {q : Int × List String}
    {m : String} (hq : q ∈ tsPut k n ts) (hm : m ∈ q.2) :
    (q.1 = k ∧ m = n) ∨ ∃ v, (q.1, v) ∈ ts ∧ m ∈ v := by
  induction ts with
  | nil =>
    simp only [tsPut, List.mem_singleton] at hq
    subst hq
    simp only [List.mem_singleton] at hm
    exact Or.inl ⟨rfl, hm⟩
  | cons p rest ih =>
    obtain ⟨k', v⟩ := p
    simp only [tsPut] at hq
    split at hq
    · rcases List.mem_cons.mp hq with h | h
      · subst h
        simp only [List.mem_singleton] at hm
        exact Or.inl ⟨rfl, hm⟩
      · exact Or.inr ⟨q.2, by simpa using h, hm⟩
    · split at hq
      · rename_i hne he
        rcases List.mem_cons.mp hq with h | h
        · subst h
          simp only at hm
          rcases List.mem_append.mp hm with h' | h'
          · exact Or.inr ⟨v, by simp, h'⟩
          · simp only [List.mem_singleton] at h'
            exact Or.inl ⟨he.symm, h'⟩
        · exact Or.inr ⟨q.2, by simp [List.mem_cons_of_mem _ h], hm⟩
      · rcases List.mem_cons.mp hq with h | h
        · subst h
          exact Or.inr ⟨v, by simp, hm⟩
        · rcases ih h with h' | h'
          · exact Or.inl h'
          · obtain ⟨v', hv', hm'⟩ := h'
            exact Or.inr ⟨v', List.mem_cons_of_mem _ hv', hm'⟩

lemma ovtNames_tsPut_perm (k : Int) (n : String) (ts : TS) :
    List.Perm (ovtNames (tsPut k n ts)) (n :: ovtNames ts) := by
  induction ts with
  | nil => simp [tsPut, ovtNames]
  | cons p rest ih =>
    obtain ⟨k', v⟩ := p
    simp only [tsPut]
    split
    · simp [ovtNames_cons]
    · split
      · rename_i hne he
        simp only [ovtNames_cons]
        have harr : (v ++ [n]) ++ ovtNames rest = v ++ n :: ovtNames rest := by simp
        rw [harr]
        exact List.perm_middle
      · simp only [ovtNames_cons]
        exact (List.Perm.append_left v ih).trans List.perm_middle

lemma tsPut_bags {k : Int} {n : String} {ts : TS}
    (hb : ∀ p ∈ ts, p.2 ≠ []) : ∀ p ∈ tsPut k n ts, p.2 ≠ [] := by
  induction ts with
  | nil => simp [tsPut]
  | cons q rest ih =>
    obtain ⟨k', v⟩ := q
    simp only [tsPut]
    split
    · intro p hp
      rcases List.mem_cons.mp hp with h | h
      · simp [h]
      · exact hb p h
    · split
      · intro p hp
        rcases List.mem_cons.mp hp with h | h
        · simp [h]
        · exact hb p (List.mem_cons_of_mem _ h)
      · intro p hp
        rcases List.mem_cons.mp hp with h | h
        · exact h ▸ hb _ (List.mem_cons_self _ _)
        · exact ih (fun q hq => hb q (List.mem_cons_of_mem _ hq)) p h

end TsLemmas

section TsRemoveLemmas

lemma removeFirst_sublist (n : String) (l : List String) :
    List.Sublist (removeFirst n l) l := by
  induction l with
  | nil => simp [removeFirst]
  | cons x xs ih =>
    simp only [removeFirst]
    split
    · exact (List.Sublist.refl xs).cons _
    · exact ih.cons₂ _

lemma mem_removeFirst_of_ne {n : String} {l : List String} {m : String}
    (hm : m ∈ l) (hne : m ≠ n) : m ∈ removeFirst n l := by
  induction l with
  | nil => simp at hm
  | cons x xs ih =>
    simp only [removeFirst]
    rcases List.mem_cons.mp hm with h | h
    · split
      · rename_i he
        subst h
        exact absurd he hne
      · simp [h]
    · split
      · exact h
      · exact List.mem_cons_of_mem _ (ih h)

lemma not_mem_removeFirst {n : String} {l : List String} (hnd : l.Nodup) :
    n ∉ removeFirst n l := by
  induction l with
  | nil => simp [removeFirst]
  | cons x xs ih =>
    simp only [List.nodup_cons] at hnd
    simp only [removeFirst]
    split
    · rename_i he
      subst he
      exact hnd.1
    · rename_i he
      simp only [List.mem_cons]
      rintro (h | h)
      · exact he h.symm
      · exact ih hnd.2 h

lemma tsRemove_keys_sublist (k : Int) (n : String) (ts : TS) :
    List.Sublist ((tsRemove k n ts).map Prod.fst) (ts.map Prod.fst) := by
  induction ts with
  | nil => simp [tsRemove]
  | cons q rest ih =>
    obtain ⟨k', v⟩ := q
    simp only [tsRemove]
    split
    · split
      · exact (List.Sublist.refl _).cons _
      · simp only [List.map_cons]
        exact (List.Sublist.refl _).cons₂ _
    · simp only [List.map_cons]
      exact ih.cons₂ _

lemma mem_tsRemove_key {k : Int} {n : String} {ts : TS} {q : Int × List String}
    (hq : q ∈ tsRemove k n ts) : q.1 ∈ ts.map Prod.fst :=
  (tsRemove_keys_sublist k n ts).mem (List.mem_map_of_mem Prod.fst hq)

lemma tsRemove_sorted {k : Int} {n : String} {ts : TS} (hs : sortedKeys ts) :
    sortedKeys (tsRemove k n ts) := by
  induction ts with
  | nil => simp [tsRemove, sortedKeys]
  | cons q rest ih =>
    obtain ⟨k', v⟩ := q
    have hrest := (sortedKeys_cons.mp hs).2
    have hhead := (sortedKeys_cons.mp hs).1
    simp only [tsRemove]
    split
    · split
      · exact hrest
      · exact sortedKeys_cons.mpr ⟨hhead, hrest⟩
    · refine sortedKeys_cons.mpr ⟨?_, ih hrest⟩
      intro q hq
      obtain ⟨p, hp, hpk⟩ := List.mem_map.mp (mem_tsRemove_key hq)
      exact hpk ▸ hhead p hp

lemma ovtNames_tsRemove_sublist (k : Int) (n : String) (ts : TS) :
    List.Sublist (ovtNames (tsRemove k n ts)) (ovtNames ts) := by
  induction ts with
  | nil => simp [tsRemove]
  | cons q rest ih =>
    obtain ⟨k', v⟩ := q
    simp only [tsRemove]
    split
    · split
      · rename_i hemp
        simp only [ovtNames_cons]
        exact List.sublist_append_right v _
      · simp only [ovtNames_cons]
        exact (removeFirst_sublist n v).append (List.Sublist.refl _)
    · simp only [ovtNames_cons]
      exact (List.Sublist.refl v).append ih

lemma mem_tsRemove_src {k : Int} {n : String} {ts : TS} {q : Int × List String}
    {m : String} (hq : q ∈ tsRemove k n ts) (hm : m ∈ q.2) :
    ∃ v, (q.1, v) ∈ ts ∧ m ∈ v := by
  induction ts with
  | nil => simp [tsRemove] at hq
  | cons p rest ih =>
    obtain ⟨k', v⟩ := p
    simp only [tsRemove] at hq
    split at hq
    · split at hq
      · exact ⟨q.2, List.mem_cons_of_mem _ (by simpa using hq), hm⟩
      · rcases List.mem_cons.mp hq with h | h
        · subst h
          exact ⟨v, by simp, (removeFirst_sublist n v).subset hm⟩
        · exact ⟨q.2, List.mem_cons_of_mem _ (by simpa using h), hm⟩
    · rcases List.mem_cons.mp hq with h | h
      · subst h
        exact ⟨v, by simp, hm⟩
      · obtain ⟨v', hv', hm'⟩ := ih h
        exact ⟨v', List.mem_cons_of_mem _ hv', hm'⟩

lemma tsRemove_preserves_reg {k : Int} {n : String} {ts : TS}
    {q : Int × List String} {m : String} (hq : q ∈ ts) (hm : m ∈ q.2) (hne : m ≠ n) :
    ∃ p ∈ tsRemove k n ts, p.1 = q.1 ∧ m ∈ p.2 := by
  induction ts with
  | nil => simp at hq
  | cons p rest ih =>
    obtain ⟨k', v⟩ := p
    simp only [tsRemove]
    split
    · rename_i he
      rcases List.mem_cons.mp hq with h | h
      · subst h
        have hmem : m ∈ removeFirst n v := mem_removeFirst_of_ne hm hne
        have hnonempty : removeFirst n v ≠ [] := by
          intro hcon
          rw [hcon] at hmem
          simp at hmem
        rw [if_neg hnonempty]
        exact ⟨(k', removeFirst n v), List.mem_cons_self _ _, rfl, hmem⟩
      · split
        · exact ⟨q, h, rfl, hm⟩
        · exact ⟨q, List.mem_cons_of_mem _ h, rfl, hm⟩
    · rcases List.mem_cons.mp hq with h | h
      · subst h
        exact ⟨(k', v), List.mem_cons_self _ _, rfl, hm⟩
      · obtain ⟨p, hp, h1, h2⟩ := ih h
        exact ⟨p, List.mem_cons_of_mem _ hp, h1, h2⟩

lemma tsRemove_bags {k : Int} {n : String} {ts : TS}
    (hb : ∀ p ∈ ts, p.2 ≠ []) : ∀ p ∈ tsRemove k n ts, p.2 ≠ [] := by
  induction ts with
  | nil => simp [tsRemove]
  | cons q rest ih =>
    obtain ⟨k', v⟩ := q
    simp only [tsRemove]
    split
    · split
      · exact fun p hp => hb p (List.mem_cons_of_mem _ hp)
      · rename_i hemp
        intro p hp
        rcases List.mem_cons.mp hp with h | h
        · rw [h]
          exact hemp
        · exact hb p (List.mem_cons_of_mem _ h)
    · intro p hp
      rcases List.mem_cons.mp hp with h | h
      · exact h ▸ hb _ (List.mem_cons_self _ _)
      · exact ih (fun q hq => hb q (List.mem_cons_of_mem _ hq)) p h

lemma not_mem_ovtNames_tsRemove {k : Int} {n : String} {ts : TS}
    (hs : sortedKeys ts) (hnd : (ovtNames ts).Nodup)
    (honly : ∀ p ∈ ts, n ∈ p.2 → p.1 = k) :
    n ∉ ovtNames (tsRemove k n ts) := by
  induction ts with
  | nil => simp [tsRemove, ovtNames]
  | cons q rest ih =>
    obtain ⟨k', v⟩ := q
    have hrest := (sortedKeys_cons.mp hs).2
    have hhead := (sortedKeys_cons.mp hs).1
    rw [ovtNames_cons] at hnd
    have hndv : v.Nodup := (List.nodup_append.mp hnd).1
    have hndrest : (ovtNames rest).Nodup := (List.nodup_append.mp hnd).2.1
    simp only [tsRemove]
    split
    · rename_i he
      subst he
      have hnrest : n ∉ ovtNames rest := by
        intro hmem
        obtain ⟨p, hp, hpm⟩ := mem_ovtNames.mp hmem
        have := honly p (List.mem_cons_of_mem _ hp) hpm
        have := hhead p hp
        omega
      split
      · exact hnrest
      · rw [ovtNames_cons]
        simp only [List.mem_append]
        rintro (h | h)
        · exact not_mem_removeFirst hndv h
        · exact hnrest h
    · rename_i he
      have hnv : n ∉ v := fun hmem =>
        he ((honly _ (List.mem_cons_self _ _) hmem).symm)
      rw [ovtNames_cons]
      simp only [List.mem_append]
      rintro (h | h)
      · exact hnv h
      · exact ih hrest hndrest
          (fun p hp hpm => honly p (List.mem_cons_of_mem _ hp) hpm) h

end TsRemoveLemmas

section PutInv

lemma putBody_fresh (s : Store) (e : Envelope) (index : String) (ovt0 : TS) :
    putBody s e index [] ovt0 =
      { s with indexes := mapInsert index [(e.timestamp, ⟨e, index⟩)] s.indexes
               ovt := ovt0
               count := s.count + 1
               expired := s.expired + (if (0 : Int) ≥ s.maxPerSource then 1 else 0)
               ingress := s.ingress + 1 } := by
  simp [putBody, idxRemove, idxPut, idxMinKey?]

lemma not_mem_ovtNames_of_lookup_none {s : Store} (hI : Inv s) {n : String}
    (hl : mapLookup n s.indexes = none) : n ∉ ovtNames s.ovt := by
  intro hmem
  obtain ⟨p, hp, hpm⟩ := mem_ovtNames.mp hmem
  obtain ⟨t, hlk, _⟩ := hI.regValid p hp n hpm
  rw [hl] at hlk
  exact Option.noConfusion hlk

lemma putRaw_inv_none {s : Store} (hI : Inv s) {e : Envelope} {index : String}
    (hl : mapLookup index s.indexes = none) : Inv (s.putRaw e index) := by
  have hnotkey : index ∉ s.indexes.map Prod.fst := mapLookup_eq_none.mp hl
  have hnotname : index ∉ ovtNames s.ovt := not_mem_ovtNames_of_lookup_none hI hl
  rw [Store.putRaw, hl, putBody_fresh]
  constructor
  case keysNodup =>
    rw [mapInsert_of_not_mem hnotkey]
    simp only [List.map_append, List.map_cons, List.map_nil]
    rw [List.nodup_append]
    exact ⟨hI.keysNodup, by simp, by
      intro a ha
      simp only [List.mem_singleton]
      intro hne
      exact hnotkey (hne ▸ ha)⟩
  case good =>
    intro q hq
    rcases mem_mapInsert hI.keysNodup hq with h | h
    · subst h
      refine ⟨by simp, by simp [sortedKeys], ?_⟩
      intro p hp
      simp only [List.mem_singleton] at hp
      simp [hp]
    · exact hI.good q h.1
  case countEq =>
    simp only
    rw [sumLens_mapInsert_none hl, hI.countEq]
    simp
  case ovtSorted => exact tsPut_sorted hI.ovtSorted
  case bagsNonempty => exact tsPut_bags hI.bagsNonempty
  case namesNodup =>
    refine (ovtNames_tsPut_perm e.timestamp index s.ovt).nodup_iff.mpr ?_
    simp [hnotname, hI.namesNodup]
  case regValid =>
    intro p hp n hn
    rcases mem_tsPut_src hp hn with ⟨hk, hn'⟩ | ⟨v, hv, hnv⟩
    · rw [hn']
      refine ⟨[(e.timestamp, ⟨e, index⟩)], mapLookup_mapInsert_self .., ?_⟩
      simp [idxMinKey?, hk]
    · obtain ⟨t, hlk, hmin⟩ := hI.regValid (p.1, v) hv n hnv
      have hne : n ≠ index := by
        intro he
        rw [he, hl] at hlk
        exact Option.noConfusion hlk
      exact ⟨t, (mapLookup_mapInsert_ne hne _ _).trans hlk, hmin⟩
  case regAll =>
    intro q hq
    rcases mem_mapInsert hI.keysNodup hq with h | h
    · subst h
      obtain ⟨p, hp, hk, hn⟩ := tsPut_reg e.timestamp index s.ovt
      exact ⟨p, hp, hn⟩
    · obtain ⟨p, hp, hn⟩ := hI.regAll q h.1
      obtain ⟨p', hp', hk', hn'⟩ := tsPut_preserves_reg hp hn
      exact ⟨p', hp', hn'⟩
  case maxBound =>
    intro hmax q hq
    rcases mem_mapInsert hI.keysNodup hq with h | h
    · subst h
      simpa using hmax
    · exact hI.maxBound hmax q h.1

lemma idxMinKey?_cons (k : Int) (w : Wrapper) (rest : Index) :
    idxMinKey? ((k, w) :: rest) = some k := rfl

lemma putBody_cons_eq (s : Store) (e : Envelope) (index : String) (k0 : Int)
    (w0 : Wrapper) (trest : Index) (ovt0 : TS) (t1 : Index) (nk : Int)
    (ht1 : t1 = if (((k0, w0) :: trest).length : Int) ≥ s.maxPerSource
        then idxRemove k0 ((k0, w0) :: trest) else (k0, w0) :: trest)
    (hnk : idxMinKey? (idxPut e.timestamp ⟨e, index⟩ t1) = some nk) :
    putBody s e index ((k0, w0) :: trest) ovt0 =
      { s with
        indexes := mapInsert index (idxPut e.timestamp ⟨e, index⟩ t1) s.indexes
        ovt := if k0 ≠ nk then tsPut nk index (tsRemove k0 index ovt0) else ovt0
        count := s.count + (((idxPut e.timestamp ⟨e, index⟩ t1).length : Int)
            - ((((k0, w0) :: trest)).length : Int))
        expired := s.expired +
          (if (((k0, w0) :: trest).length : Int) ≥ s.maxPerSource then 1 else 0)
        ingress := s.ingress + 1 } := by
  subst ht1
  simp only [putBody, idxMinKey?_cons, hnk, ne_eq, List.cons_ne_nil, not_false_eq_true,
    and_true]

lemma inv_update_existing {s : Store} (hI : Inv s) {index : String} {t0 t2 : Index}
    (hl : mapLookup index s.indexes = some t0)
    (ht2ne : t2 ≠ []) (ht2s : sortedKeys t2)
    (ht2f : ∀ p ∈ t2, p.2.index = index ∧ p.2.e.timestamp = p.1)
    (ht2len : 1 ≤ s.maxPerSource → (t2.length : Int) ≤ s.maxPerSource)
    {oldest newOldest : Int}
    (hmin0 : idxMinKey? t0 = some oldest)
    (hmin2 : idxMinKey? t2 = some newOldest)
    {ovt1 : TS}
    (hovt : (newOldest = oldest ∧ ovt1 = s.ovt) ∨
            ovt1 = tsPut newOldest index (tsRemove oldest index s.ovt))
    {c : Int} (hc : c = s.count + ((t2.length : Int) - (t0.length : Int)))
    (exp2 ing2 : Nat) :
    Inv { s with indexes := mapInsert index t2 s.indexes
                 ovt := ovt1
                 count := c
                 expired := exp2
                 ingress := ing2 } := by
  have hmem0 : (index, t0) ∈ s.indexes := mapLookup_some_mem hl
  have hkeymem : index ∈ s.indexes.map Prod.fst := List.mem_map_of_mem Prod.fst hmem0
  have honly : ∀ p ∈ s.ovt, index ∈ p.2 → p.1 = oldest := by
    intro p hp hip
    obtain ⟨t, hlk, hmin⟩ := hI.regValid p hp index hip
    rw [hl] at hlk
    obtain rfl : t0 = t := by injection hlk
    rw [hmin0] at hmin
    injection hmin with hmin
    omega
  constructor
  case keysNodup =>
    simp only
    rw [mapInsert_keys_of_mem hkeymem]
    exact hI.keysNodup
  case good =>
    intro q hq
    simp only at hq
    rcases mem_mapInsert hI.keysNodup hq with h | h
    · subst h
      exact ⟨ht2ne, ht2s, ht2f⟩
    · exact hI.good q h.1
  case countEq =>
    have h1 := hI.countEq
    have h2 := sumLens_mapInsert_some (v := t2) hl
    simp only
    omega
  case ovtSorted =>
    rcases hovt with ⟨_, h⟩ | h <;> rw [h]
    · exact hI.ovtSorted
    · exact tsPut_sorted (tsRemove_sorted hI.ovtSorted)
  case bagsNonempty =>
    rcases hovt with ⟨_, h⟩ | h <;> rw [h]
    · exact hI.bagsNonempty
    · exact tsPut_bags (tsRemove_bags hI.bagsNonempty)
  case namesNodup =>
    rcases hovt with ⟨_, h⟩ | h <;> rw [h]
    · exact hI.namesNodup
    · refine (ovtNames_tsPut_perm ..).nodup_iff.mpr ?_
      rw [List.nodup_cons]
      exact ⟨not_mem_ovtNames_tsRemove hI.ovtSorted hI.namesNodup honly,
        List.Nodup.sublist (ovtNames_tsRemove_sublist ..) hI.namesNodup⟩
  case regValid =>
    intro p hp n hn
    simp only at hp hn ⊢
    rcases hovt with ⟨hno, h⟩ | h
    · rw [h] at hp
      obtain ⟨t, hlk, hmin⟩ := hI.regValid p hp n hn
      by_cases hni : n = index
      · refine ⟨t2, by rw [hni]; exact mapLookup_mapInsert_self .., ?_⟩
        rw [hni, hl] at hlk
        obtain rfl : t0 = t := by injection hlk
        rw [hmin0] at hmin
        injection hmin with hmin
        rw [hmin2, hno, hmin]
      · exact ⟨t, (mapLookup_mapInsert_ne hni _ _).trans hlk, hmin⟩
    · rw [h] at hp
      rcases mem_tsPut_src hp hn with ⟨hpk, hnn⟩ | ⟨v, hv, hnv⟩
      · refine ⟨t2, by rw [hnn]; exact mapLookup_mapInsert_self .., ?_⟩
        rw [hmin2, hpk]
      · have hni : n ≠ index := by
          intro he
          have hmem : n ∈ ovtNames (tsRemove oldest index s.ovt) :=
            mem_ovtNames.mpr ⟨(p.1, v), hv, hnv⟩
          rw [he] at hmem
          exact not_mem_ovtNames_tsRemove hI.ovtSorted hI.namesNodup honly hmem
        obtain ⟨v', hv', hnv'⟩ := mem_tsRemove_src hv hnv
        obtain ⟨t, hlk, hmin⟩ := hI.regValid (p.1, v') hv' n hnv'
        exact ⟨t, (mapLookup_mapInsert_ne hni _ _).trans hlk, hmin⟩
  case regAll =>
    intro q hq
    simp only at hq ⊢
    rcases mem_mapInsert hI.keysNodup hq with h | h
    · subst h
      rcases hovt with ⟨_, h⟩ | h <;> rw [h]
      · obtain ⟨p, hp, hip⟩ := hI.regAll (index, t0) hmem0
        exact ⟨p, hp, hip⟩
      · obtain ⟨p, hp, _, hip⟩ := tsPut_reg newOldest index (tsRemove oldest index s.ovt)
        exact ⟨p, hp, hip⟩
    · obtain ⟨p, hp, hqp⟩ := hI.regAll q h.1
      rcases hovt with ⟨_, hov⟩ | hov <;> rw [hov]
      · exact ⟨p, hp, hqp⟩
      · obtain ⟨p', hp', hk', hqp'⟩ := tsRemove_preserves_reg hp hqp h.2
        obtain ⟨p'', hp'', _, hqp''⟩ := tsPut_preserves_reg hp' hqp'
        exact ⟨p'', hp'', hqp''⟩
  case maxBound =>
    intro hmax q hq
    simp only at hq ⊢
    rcases mem_mapInsert hI.keysNodup hq with h | h
    · subst h
      exact ht2len hmax
    · exact hI.maxBound hmax q h.1

lemma idxMinKey?_exists {t : Index} (h : t ≠ []) : ∃ k, idxMinKey? t = some k := by
  cases t with
  | nil => exact absurd rfl h
  | cons a l => exact ⟨a.1, rfl⟩

lemma putRaw_inv_cons_aux {s : Store} (hI : Inv s) {e : Envelope} {index : String}
    {k0 : Int} {w0 : Wrapper} {trest : Index}
    (hl : mapLookup index s.indexes = some ((k0, w0) :: trest))
    (t1 : Index)
    (ht1 : t1 = if (((k0, w0) :: trest).length : Int) >= s.maxPerSource
        then idxRemove k0 ((k0, w0) :: trest) else (k0, w0) :: trest) :
    Inv (putBody s e index ((k0, w0) :: trest) s.ovt) := by
  obtain ⟨htne, hts, htf⟩ := hI.good _ (mapLookup_some_mem hl)
  have htrest : sortedKeys trest := (sortedKeys_cons.mp hts).2
  have hmaxb : 1 ≤ s.maxPerSource →
      ((((k0, w0) :: trest).length : Int)) ≤ s.maxPerSource :=
    fun hm => hI.maxBound hm _ (mapLookup_some_mem hl)
  have ht1s : sortedKeys t1 := by
    rw [ht1]
    split
    · rw [idxRemove_head]
      exact htrest
    · exact hts
  have ht1sub : ∀ p ∈ t1, p ∈ (k0, w0) :: trest := by
    rw [ht1]
    split
    · rw [idxRemove_head]
      exact fun p hp => List.mem_cons_of_mem _ hp
    · exact fun p hp => hp
  have ht1len : 1 ≤ s.maxPerSource → (t1.length : Int) + 1 ≤ s.maxPerSource := by
    intro hm
    rw [ht1]
    split
    · rename_i hc
      rw [idxRemove_head]
      have := hmaxb hm
      simp only [List.length_cons] at this ⊢
      omega
    · rename_i hc
      simp only [ge_iff_le, not_le] at hc
      omega
  obtain ⟨nk, hnk⟩ := idxMinKey?_exists (idxPut_ne_nil e.timestamp ⟨e, index⟩ t1)
  rw [putBody_cons_eq s e index k0 w0 trest s.ovt t1 nk ht1 hnk]
  refine inv_update_existing hI hl (idxPut_ne_nil e.timestamp ⟨e, index⟩ t1)
    (idxPut_sorted ht1s) ?_ ?_ (idxMinKey?_cons ..) hnk ?_ rfl _ _
  · intro p hp
    rcases mem_idxPut ht1s hp with h | h
    · subst h
      exact ⟨rfl, rfl⟩
    · exact htf p (ht1sub p h.1)
  · intro hm
    have h1 := idxPut_length_le e.timestamp ⟨e, index⟩ t1
    have h2 := ht1len hm
    push_cast at h1 ⊢
    omega
  · by_cases hkn : k0 = nk
    · left
      refine ⟨hkn.symm, ?_⟩
      rw [if_neg (by simp [hkn])]
    · right
      rw [if_pos hkn]

lemma putRaw_inv_some {s : Store} (hI : Inv s) {e : Envelope} {index : String}
    {t0 : Index} (hl : mapLookup index s.indexes = some t0) :
    Inv (s.putRaw e index) := by
  obtain ⟨htne, hts, htf⟩ := hI.good _ (mapLookup_some_mem hl)
  obtain ⟨p0, trest, ht0⟩ := List.exists_cons_of_ne_nil htne
  obtain ⟨k0, w0⟩ := p0
  simp only at ht0
  subst ht0
  rw [Store.putRaw, hl]
  exact putRaw_inv_cons_aux hI hl _ rfl

lemma putRaw_inv {s : Store} (hI : Inv s) (e : Envelope) (index : String) :
    Inv (s.putRaw e index) := by
  cases hl : mapLookup index s.indexes with
  | none => exact putRaw_inv_none hI hl
  | some t0 => exact putRaw_inv_some hI hl

lemma putRaw_count_pos {s : Store} (hI : Inv s) (e : Envelope) (index : String) :
    0 < (s.putRaw e index).count := by
  rw [Store.putRaw]
  cases hl : mapLookup index s.indexes with
  | none =>
    show 0 < (putBody s e index [] (tsPut e.timestamp index s.ovt)).count
    rw [putBody_fresh]
    simp only
    have h0 := hI.countEq
    have h1 := sumLens_nonneg s.indexes
    omega
  | some t0 =>
    obtain ⟨gne, gsort, gf⟩ := hI.good _ (mapLookup_some_mem hl)
    obtain ⟨⟨k0, w0⟩, trest, ht⟩ := List.exists_cons_of_ne_nil gne
    simp only at ht
    subst ht
    show 0 < (putBody s e index ((k0, w0) :: trest) s.ovt).count
    obtain ⟨nk, hnk⟩ := idxMinKey?_exists (idxPut_ne_nil e.timestamp ⟨e, index⟩
      (if (((k0, w0) :: trest).length : Int) >= s.maxPerSource
       then idxRemove k0 ((k0, w0) :: trest) else (k0, w0) :: trest))
    rw [putBody_cons_eq s e index k0 w0 trest s.ovt _ nk rfl hnk]
    simp only
    have hcnt : ((((k0, w0) :: trest).length : Int)) ≤ s.count := by
      rw [hI.countEq]
      exact entry_le_sumLens (mapLookup_some_mem hl)
    have ht2 : 0 < (idxPut e.timestamp ⟨e, index⟩
        (if (((k0, w0) :: trest).length : Int) >= s.maxPerSource
         then idxRemove k0 ((k0, w0) :: trest) else (k0, w0) :: trest)).length :=
      List.length_pos.mpr (idxPut_ne_nil _ _ _)
    omega

lemma putRaw_count_le {s : Store} (hI : Inv s) (e : Envelope) (index : String) :
    (s.putRaw e index).count ≤ s.count + 1 := by
  rw [Store.putRaw]
  cases hl : mapLookup index s.indexes with
  | none =>
    show (putBody s e index [] (tsPut e.timestamp index s.ovt)).count ≤ s.count + 1
    rw [putBody_fresh]
  | some t0 =>
    obtain ⟨gne, gsort, gf⟩ := hI.good _ (mapLookup_some_mem hl)
    obtain ⟨⟨k0, w0⟩, trest, ht⟩ := List.exists_cons_of_ne_nil gne
    simp only at ht
    subst ht
    show (putBody s e index ((k0, w0) :: trest) s.ovt).count ≤ s.count + 1
    obtain ⟨nk, hnk⟩ := idxMinKey?_exists (idxPut_ne_nil e.timestamp ⟨e, index⟩
      (if (((k0, w0) :: trest).length : Int) >= s.maxPerSource
       then idxRemove k0 ((k0, w0) :: trest) else (k0, w0) :: trest))
    rw [putBody_cons_eq s e index k0 w0 trest s.ovt _ nk rfl hnk]
    simp only
    have h1 := idxPut_length_le e.timestamp ⟨e, index⟩
      (if (((k0, w0) :: trest).length : Int) >= s.maxPerSource
       then idxRemove k0 ((k0, w0) :: trest) else (k0, w0) :: trest)
    have h2 : (if (((k0, w0) :: trest).length : Int) >= s.maxPerSource
        then idxRemove k0 ((k0, w0) :: trest)
        else (k0, w0) :: trest).length ≤ ((k0, w0) :: trest).length := by
      split
      · exact (idxRemove_sublist ..).length_le
      · exact le_refl _
    omega

lemma putBody_size (s : Store) (e : Envelope) (index : String) (t0 : Index)
    (ovt0 : TS) : (putBody s e index t0 ovt0).size = s.size := rfl

lemma putBody_max (s : Store) (e : Envelope) (index : String) (t0 : Index)
    (ovt0 : TS) : (putBody s e index t0 ovt0).maxPerSource = s.maxPerSource := rfl

lemma putRaw_size (s : Store) (e : Envelope) (index : String) :
    (s.putRaw e index).size = s.size := by
  rw [Store.putRaw]
  cases mapLookup index s.indexes <;> rfl

lemma putRaw_max (s : Store) (e : Envelope) (index : String) :
    (s.putRaw e index).maxPerSource = s.maxPerSource := by
  rw [Store.putRaw]
  cases mapLookup index s.indexes <;> rfl

lemma truncateBody_count (s : Store) (key : Int) (name : String) :
    (truncateBody s key name).count = s.count - 1 := by
  simp only [truncateBody]
  split <;> rfl

lemma truncateBody_size (s : Store) (key : Int) (name : String) :
    (truncateBody s key name).size = s.size := by
  simp only [truncateBody]
  split <;> rfl

lemma truncateBody_max (s : Store) (key : Int) (name : String) :
    (truncateBody s key name).maxPerSource = s.maxPerSource := by
  simp only [truncateBody]
  split <;> rfl

lemma truncate_count (s : Store) :
    s.truncate.count = if s.count ≤ s.size then s.count else s.count - 1 := by
  rw [Store.truncate]
  split
  · rfl
  · split
    · rfl
    · rw [truncateBody_count]

lemma truncate_size (s : Store) : s.truncate.size = s.size := by
  rw [Store.truncate]
  split
  · rfl
  · split
    · rfl
    · rw [truncateBody_size]

lemma truncate_max (s : Store) : s.truncate.maxPerSource = s.maxPerSource := by
  rw [Store.truncate]
  split
  · rfl
  · split
    · rfl
    · rw [truncateBody_max]

lemma headD_mem {l : List String} (h : l ≠ []) : l.headD "" ∈ l := by
  cases l with
  | nil => exact absurd rfl h
  | cons x xs => simp [List.headD]

lemma inv_erase {s : Store} (hI : Inv s) {name : String} {key : Int} {w1 : Wrapper}
    (hl : mapLookup name s.indexes = some [(key, w1)])
    {c : Int} (hc : c = s.count - 1) (exp2 ing2 : Nat) :
    Inv { s with indexes := mapErase name s.indexes
                 ovt := tsRemove key name s.ovt
                 count := c
                 expired := exp2
                 ingress := ing2 } := by
  have hmem0 : (name, [(key, w1)]) ∈ s.indexes := mapLookup_some_mem hl
  have honly : ∀ p ∈ s.ovt, name ∈ p.2 → p.1 = key := by
    intro p hp hip
    obtain ⟨t, hlk, hmin⟩ := hI.regValid p hp name hip
    rw [hl] at hlk
    obtain rfl : [(key, w1)] = t := by injection hlk
    rw [idxMinKey?_cons] at hmin
    injection hmin with hmin
    omega
  constructor
  case keysNodup =>
    simp only
    exact List.Nodup.sublist ((mapErase_sublist name s.indexes).map Prod.fst)
      hI.keysNodup
  case good =>
    intro q hq
    simp only at hq
    exact hI.good q ((mapErase_sublist name s.indexes).subset hq)
  case countEq =>
    simp only
    rw [hc, sumLens_mapErase hl, hI.countEq]
    simp
  case ovtSorted => exact tsRemove_sorted hI.ovtSorted
  case bagsNonempty => exact tsRemove_bags hI.bagsNonempty
  case namesNodup =>
    exact List.Nodup.sublist (ovtNames_tsRemove_sublist ..) hI.namesNodup
  case regValid =>
    intro p hp n hn
    simp only at hp hn ⊢
    have hni : n ≠ name := by
      intro he
      have hmem : n ∈ ovtNames (tsRemove key name s.ovt) :=
        mem_ovtNames.mpr ⟨p, hp, hn⟩
      rw [he] at hmem
      exact not_mem_ovtNames_tsRemove hI.ovtSorted hI.namesNodup honly hmem
    obtain ⟨v', hv', hnv'⟩ := mem_tsRemove_src hp hn
    obtain ⟨t, hlk, hmin⟩ := hI.regValid (p.1, v') hv' n hnv'
    exact ⟨t, (mapLookup_mapErase_ne hni _).trans hlk, hmin⟩
  case regAll =>
    intro q hq
    simp only at hq ⊢
    have hqm : q ∈ s.indexes := (mapErase_sublist name s.indexes).subset hq
    have hqne : q.1 ≠ name := by
      intro he
      exact mapErase_keys_not_mem hI.keysNodup
        (he ▸ List.mem_map_of_mem Prod.fst hq)
    obtain ⟨p, hp, hqp⟩ := hI.regAll q hqm
    obtain ⟨p', hp', hk', hqp'⟩ := tsRemove_preserves_reg hp hqp hqne
    exact ⟨p', hp', hqp'⟩
  case maxBound =>
    intro hmax q hq
    simp only at hq ⊢
    exact hI.maxBound hmax q ((mapErase_sublist name s.indexes).subset hq)

lemma truncateBody_eq {s : Store} {name : String} {key : Int} {w1 : Wrapper}
    {ttail : Index} (hlk : mapLookup name s.indexes = some ((key, w1) :: ttail)) :
    truncateBody s key name =
      if ttail = [] then
        { s with count := s.count - 1, expired := s.expired + 1,
                 ovt := tsRemove key name s.ovt,
                 indexes := mapErase w1.index s.indexes }
      else
        { s with count := s.count - 1, expired := s.expired + 1,
                 ovt := tsPut (match idxMinKey? ttail with
                               | some k => k
                               | none => 0) name (tsRemove key name s.ovt),
                 indexes := mapInsert name ttail s.indexes } := by
  simp only [truncateBody, hlk, Option.getD_some, List.head?_cons, idxRemove_head]

lemma truncate_inv {s : Store} (hI : Inv s) (hpos : s.size < s.count → 0 < s.count) :
    Inv s.truncate := by
  rw [Store.truncate]
  split
  · exact hI
  · rename_i hgt
    push_neg at hgt
    have hcpos : 0 < s.count := hpos hgt
    have hne : s.indexes ≠ [] := by
      intro h
      rw [hI.countEq, h] at hcpos
      simp [sumLens] at hcpos
    cases hovt : s.ovt with
    | nil =>
      obtain ⟨q0, hq0⟩ := List.exists_mem_of_ne_nil s.indexes hne
      obtain ⟨p0, hp0, _⟩ := hI.regAll q0 hq0
      rw [hovt] at hp0
      simp at hp0
    | cons phead prest =>
      obtain ⟨key, bag⟩ := phead
      have hheadmem : (key, bag) ∈ s.ovt := by
        rw [hovt]
        exact List.mem_cons_self _ _
      have hbagne : bag ≠ [] := hI.bagsNonempty (key, bag) hheadmem
      show Inv (truncateBody s key (bag.headD ""))
      have hnamebag : bag.headD "" ∈ bag := headD_mem hbagne
      obtain ⟨t, hlk, hmin⟩ := hI.regValid (key, bag) hheadmem (bag.headD "") hnamebag
      obtain ⟨gne, gsort, gf⟩ := hI.good _ (mapLookup_some_mem hlk)
      obtain ⟨⟨k1, w1⟩, ttail, ht⟩ := List.exists_cons_of_ne_nil gne
      simp only at ht
      subst ht
      have hk1 : k1 = key := by
        rw [idxMinKey?_cons] at hmin
        injection hmin with hmin
      rw [← hk1]
      have hw1 : w1.index = bag.headD "" :=
        (gf (k1, w1) (List.mem_cons_self _ _)).1
      rw [truncateBody_eq hlk]
      split
      · rename_i htt
        subst htt
        rw [hw1]
        exact inv_erase hI hlk rfl _ _
      · rename_i htt
        obtain ⟨⟨k2, w2⟩, tt2, ht2⟩ := List.exists_cons_of_ne_nil htt
        subst ht2
        rw [idxMinKey?_cons]
        refine inv_update_existing hI hlk (by simp)
          ((sortedKeys_cons.mp gsort).2) ?_ ?_ (idxMinKey?_cons ..)
          (idxMinKey?_cons ..) (Or.inr rfl) ?_ _ _
        · exact fun p hp => gf p (List.mem_cons_of_mem _ hp)
        · intro hm
          have := hI.maxBound hm _ (mapLookup_some_mem hlk)
          simp only [List.length_cons] at this ⊢
          omega
        · simp only [List.length_cons]
          push_cast
          ring

lemma inv_new (size maxPerSource : Int) : Inv (NewStore size maxPerSource) := by
  constructor <;> simp [NewStore, sumLens, sortedKeys, ovtNames]

lemma put_inv {s : Store} (hI : Inv s) (e : Envelope) (index : String) :
    Inv (s.put e index) :=
  truncate_inv (putRaw_inv hI e index) (fun _ => putRaw_count_pos hI e index)

/-- Every reachable store satisfies the internal invariant, and its count
never exceeds `max size 0` once Put (with its closing truncate) has
returned. -/
lemma reachable_inv {s : Store} (h : Reachable s) :
    Inv s ∧ s.count ≤ max s.size 0 := by
  induction h with
  | new size maxPerSource =>
    refine ⟨inv_new size maxPerSource, ?_⟩
    simp [NewStore]
  | put e index hr ih =>
    rename_i s0
    obtain ⟨hI, hle⟩ := ih
    refine ⟨put_inv hI e index, ?_⟩
    have h1 := putRaw_count_pos hI e index
    have h2 := putRaw_count_le hI e index
    have h3 := putRaw_size s0 e index
    have h4 := truncate_count (s0.putRaw e index)
    have h5 := truncate_size (s0.putRaw e index)
    show ((s0.putRaw e index).truncate).count ≤
      max ((s0.putRaw e index).truncate).size 0
    rw [h4, h5, h3]
    split <;> omega

end PutInv

section GetSpec

lemma getLoop_spec (index : String) (ft : Option FilterType) (endT limit : Int)
    (l : Index) (res out : List Envelope)
    (h : getLoop index ft endT limit l res = .ok out) :
    ∃ sub : Index, List.Sublist sub l ∧ out = res ++ sub.map (fun p => p.2.e) ∧
      (∀ p ∈ sub, p.2.index = index ∧ p.1 < endT) ∧
      (out.length : Int) ≤ max limit ((res.length : Int) + 1) := by
  induction l generalizing res with
  | nil =>
    simp only [getLoop, Except.ok.injEq] at h
    subst h
    exact ⟨[], List.nil_sublist _, by simp, by simp, by omega⟩
  | cons q rest ih =>
    obtain ⟨k, w⟩ := q
    simp only [getLoop] at h
    split at h
    · rename_i hk
      simp only [Except.ok.injEq] at h
      subst h
      exact ⟨[], List.nil_sublist _, by simp, by simp, by omega⟩
    · rename_i hk
      split at h
      · exact absurd h (by simp)
      · rename_i c hc
        cases c with
        | true =>
          have hwi : w.index = index := by
            by_contra hwi
            rw [if_neg hwi] at hc
            simp at hc
          simp only [if_true] at h
          split at h
          · rename_i hstop
            simp only [Except.ok.injEq] at h
            subst h
            refine ⟨[(k, w)], (List.nil_sublist rest).cons₂ _, by simp, ?_, ?_⟩
            · intro p hp
              simp only [List.mem_singleton] at hp
              subst hp
              exact ⟨hwi, by omega⟩
            · simp only [List.length_append, List.length_singleton]
              push_cast
              omega
          · rename_i hstop
            obtain ⟨sub, hsub, hout, hprops, hlen⟩ := ih (res ++ [w.e]) h
            refine ⟨(k, w) :: sub, hsub.cons₂ _, ?_, ?_, ?_⟩
            · rw [hout]
              simp
            · intro p hp
              rcases List.mem_cons.mp hp with hp | hp
              · subst hp
                exact ⟨hwi, by omega⟩
              · exact hprops p hp
            · simp only [List.length_append, List.length_singleton] at hstop hlen
              push_cast at hstop hlen ⊢
              omega
        | false =>
          simp only [Bool.false_eq_true, if_false] at h
          split at h
          · rename_i hstop
            simp only [Except.ok.injEq] at h
            subst h
            exact ⟨[], List.nil_sublist _, by simp, by simp, by omega⟩
          · rename_i hstop
            obtain ⟨sub, hsub, hout, hprops, hlen⟩ := ih res h
            exact ⟨sub, hsub.cons _, hout, hprops, hlen⟩

lemma wrapper_eta {w : Wrapper} {env : Envelope} {idx : String}
    (h1 : w.e = env) (h2 : w.index = idx) : w = ⟨env, idx⟩ := by
  cases w
  simp only at h1 h2
  rw [h1, h2]

lemma get_spec {s : Store} (hI : Inv s) (idx : String) (startT endT : Int)
    (ft : Option FilterType) (limit : Int) (res : List Envelope)
    (hres : s.get idx startT endT ft limit = .ok res) :
    (∀ env ∈ res, startT ≤ env.timestamp ∧ env.timestamp < endT ∧
      ∃ t, mapLookup idx s.indexes = some t ∧ ∃ k, (k, ⟨env, idx⟩) ∈ t) ∧
    (res.length : Int) ≤ max limit 1 ∧
    res.Pairwise (fun a b => a.timestamp < b.timestamp) ∧
    (mapLookup idx s.indexes = none → res = []) := by
  rw [Store.get] at hres
  cases hl : mapLookup idx s.indexes with
  | none =>
    rw [hl] at hres
    simp only [Except.ok.injEq] at hres
    subst hres
    exact ⟨by simp, by simp, by simp, fun _ => rfl⟩
  | some t =>
    rw [hl] at hres
    obtain ⟨_, hsort, hfields⟩ := hI.good _ (mapLookup_some_mem hl)
    obtain ⟨sub, hsub, hout, hprops, hlen⟩ :=
      getLoop_spec idx ft endT limit _ [] res hres
    simp only [List.nil_append] at hout
    have hsubt : ∀ p ∈ sub, p ∈ t := fun p hp =>
      (dropWhile_sublist' _ t).subset (hsub.subset hp)
    have hsubdrop : ∀ p ∈ sub, startT ≤ p.1 := fun p hp =>
      mem_dropWhile_ge hsort (hsub.subset hp)
    refine ⟨?_, ?_, ?_, ?_⟩
    · intro env henv
      rw [hout] at henv
      obtain ⟨p, hp, hpe⟩ := List.mem_map.mp henv
      have hf := hfields p (hsubt p hp)
      have hpr := hprops p hp
      refine ⟨?_, ?_, t, rfl, p.1, ?_⟩
      · rw [← hpe, hf.2]
        exact hsubdrop p hp
      · rw [← hpe, hf.2]
        exact hpr.2
      · have : p.2 = ⟨env, idx⟩ := wrapper_eta hpe hpr.1
        rw [← this]
        exact hsubt p hp
    · simp only [List.length_nil] at hlen
      push_cast at hlen ⊢
      omega
    · rw [hout]
      have hsubsort : sub.Pairwise (fun a b => a.1 < b.1) :=
        List.Pairwise.sublist (hsub.trans (dropWhile_sublist' _ t)) hsort
      rw [List.pairwise_map]
      refine hsubsort.imp_of_mem ?_
      intro a b ha hb hab
      rw [(hfields a (hsubt a ha)).2, (hfields b (hsubt b hb)).2]
      exact hab
    · exact fun h => Option.noConfusion h

end GetSpec

section TruncateSpec

lemma truncateBody_expired (s : Store) (key : Int) (name : String) :
    (truncateBody s key name).expired = s.expired + 1 := by
  simp only [truncateBody]
  split <;> rfl

lemma truncate_eq_body {s : Store} (hgt : s.size < s.count) {key : Int}
    {bag : List String} {prest : TS} (hovt : s.ovt = (key, bag) :: prest) :
    s.truncate = truncateBody s key (bag.headD "") := by
  rw [Store.truncate, if_neg (by omega), hovt]
  rfl

lemma truncate_spec {s : Store} (hI : Inv s) (hgt : s.size < s.count)
    (hpos : 0 < s.count) :
    ∃ name t key w,
      mapLookup name s.indexes = some t ∧
      t.head? = some (key, w) ∧
      (∀ q ∈ s.indexes, ∀ p ∈ q.2, key ≤ p.1) ∧
      s.truncate.count = s.count - 1 ∧
      s.truncate.expired = s.expired + 1 ∧
      (t.tail = [] → mapLookup name s.truncate.indexes = none) ∧
      (t.tail ≠ [] →
        mapLookup name s.truncate.indexes = some t.tail ∧
        ∃ p ∈ s.truncate.ovt, name ∈ p.2 ∧ idxMinKey? t.tail = some p.1) := by
  have hne : s.indexes ≠ [] := by
    intro h
    rw [hI.countEq, h] at hpos
    simp [sumLens] at hpos
  cases hovt : s.ovt with
  | nil =>
    obtain ⟨q0, hq0⟩ := List.exists_mem_of_ne_nil s.indexes hne
    obtain ⟨p0, hp0, _⟩ := hI.regAll q0 hq0
    rw [hovt] at hp0
    simp at hp0
  | cons phead prest =>
    obtain ⟨key, bag⟩ := phead
    have hheadmem : (key, bag) ∈ s.ovt := by
      rw [hovt]
      exact List.mem_cons_self _ _
    have hbagne := hI.bagsNonempty _ hheadmem
    have hnb : bag.headD "" ∈ bag := headD_mem hbagne
    obtain ⟨t, hlk, hmin⟩ := hI.regValid _ hheadmem _ hnb
    obtain ⟨gne, gsort, gf⟩ := hI.good _ (mapLookup_some_mem hlk)
    obtain ⟨⟨k1, w1⟩, ttail, ht⟩ := List.exists_cons_of_ne_nil gne
    simp only at ht
    subst ht
    have hk1 : key = k1 := by
      rw [idxMinKey?_cons] at hmin
      injection hmin with h
      exact h.symm
    subst hk1
    have hovts : sortedKeys ((key, bag) :: prest) := by
      have h := hI.ovtSorted
      rw [hovt] at h
      exact h
    have hgmin : ∀ q ∈ s.indexes, ∀ p ∈ q.2, key ≤ p.1 := by
      intro q hq p hp
      obtain ⟨r, hr, hqr⟩ := hI.regAll q hq
      obtain ⟨t', hlk', hmin'⟩ := hI.regValid r hr q.1 hqr
      have hq2 : mapLookup q.1 s.indexes = some q.2 :=
        mem_mapLookup hI.keysNodup hq
      rw [hq2] at hlk'
      obtain rfl : q.2 = t' := by injection hlk'
      have hkr : key ≤ r.1 := by
        rw [hovt] at hr
        exact sortedKeys_head_le hovts hr
      obtain ⟨⟨kq, wq⟩, tq, htq⟩ := List.exists_cons_of_ne_nil (hI.good q hq).1
      have hsq : sortedKeys q.2 := (hI.good q hq).2.1
      rw [htq, idxMinKey?_cons] at hmin'
      injection hmin' with hh
      rw [htq] at hsq
      have hple : kq ≤ p.1 := sortedKeys_head_le hsq (htq ▸ hp)
      omega
    have hw1 : w1.index = bag.headD "" := (gf (key, w1) (List.mem_cons_self _ _)).1
    have htb := truncate_eq_body hgt hovt
    refine ⟨bag.headD "", (key, w1) :: ttail, key, w1, hlk, rfl, hgmin, ?_, ?_, ?_, ?_⟩
    · rw [htb, truncateBody_count]
    · rw [htb, truncateBody_expired]
    · intro htt
      simp only [List.tail_cons] at htt
      subst htt
      rw [htb, truncateBody_eq hlk, if_pos rfl, hw1]
      simp only
      exact mapLookup_mapErase_self hI.keysNodup
    · intro htt
      simp only [List.tail_cons] at htt ⊢
      obtain ⟨⟨k2, w2⟩, tt2, ht2⟩ := List.exists_cons_of_ne_nil htt
      subst ht2
      rw [htb, truncateBody_eq hlk, if_neg (by simp)]
      simp only [idxMinKey?_cons]
      refine ⟨mapLookup_mapInsert_self .., ?_⟩
      obtain ⟨p, hp, hpk, hpn⟩ := tsPut_reg k2 (bag.headD "")
        (tsRemove key (bag.headD "") s.ovt)
      exact ⟨p, hp, hpn, by rw [hpk]⟩

end TruncateSpec

section ClaimHelpers

instance exceptDecEq {ε α : Type} [DecidableEq ε] [DecidableEq α] :
    DecidableEq (Except ε α) := fun x y =>
  match x, y with
  | .ok a, .ok b => if h : a = b then isTrue (by rw [h]) else isFalse (by simp [h])
  | .error a, .error b =>
    if h : a = b then isTrue (by rw [h]) else isFalse (by simp [h])
  | .ok _, .error _ => isFalse (by simp)
  | .error _, .ok _ => isFalse (by simp)

lemma checkEnvelopeType_ok {ft : Option FilterType} (h : ft ≠ some FilterType.other)
    (e : Envelope) : ∃ b, checkEnvelopeType e ft = .ok b := by
  match ft with
  | none => exact ⟨true, rfl⟩
  | some .log => exact ⟨_, rfl⟩
  | some .counter => exact ⟨_, rfl⟩
  | some .gauge => exact ⟨_, rfl⟩
  | some .timer => exact ⟨_, rfl⟩
  | some .event => exact ⟨_, rfl⟩
  | some .other => exact absurd rfl h

lemma getLoop_total {index : String} {ft : Option FilterType} {endT limit : Int}
    (h : ft ≠ some FilterType.other) :
    ∀ (l : Index) (res : List Envelope),
      ∃ out, getLoop index ft endT limit l res = .ok out := by
  intro l
  induction l with
  | nil => exact fun res => ⟨res, rfl⟩
  | cons q rest ih =>
    obtain ⟨k, w⟩ := q
    intro res
    simp only [getLoop]
    split
    · exact ⟨res, rfl⟩
    · obtain ⟨c, hc⟩ : ∃ c,
          (if w.index = index then checkEnvelopeType w.e ft else .ok false) = .ok c := by
        split
        · exact checkEnvelopeType_ok h w.e
        · exact ⟨false, rfl⟩
      rw [hc]
      show ∃ out,
        (if limit ≤ (((if c = true then res ++ [w.e] else res)).length : Int) then
          Except.ok (if c = true then res ++ [w.e] else res)
        else getLoop index ft endT limit rest
          (if c = true then res ++ [w.e] else res)) = .ok out
      split
      · split
        · exact ⟨_, rfl⟩
        · exact ih _
      · split
        · exact ⟨_, rfl⟩
        · exact ih _

lemma get_total (s : Store) (idx : String) (startT endT : Int)
    {ft : Option FilterType} (h : ft ≠ some FilterType.other) (limit : Int) :
    ∃ res, s.get idx startT endT ft limit = .ok res := by
  rw [Store.get]
  cases mapLookup idx s.indexes with
  | none => exact ⟨[], rfl⟩
  | some t => exact getLoop_total h _ _

lemma ringPush_spec (es : List Envelope) : ∀ r : Ring, 0 < r.cap →
    r.buf.length ≤ r.cap →
    (es.foldl ringPush r).cap = r.cap ∧
    (es.foldl ringPush r).buf =
      (r.buf ++ es).drop (r.buf.length + es.length - r.cap) ∧
    (es.foldl ringPush r).dropped = r.dropped + (r.buf.length + es.length - r.cap) ∧
    (es.foldl ringPush r).logs = r.logs ++
      List.replicate (r.buf.length + es.length - r.cap) "dropped 1 envelopes" := by
  induction es with
  | nil =>
    intro r hpos hle
    have h0 : r.buf.length - r.cap = 0 := by omega
    simp [h0]
  | cons e rest ih =>
    intro r hpos hle
    simp only [List.foldl_cons]
    by_cases hlt : r.buf.length < r.cap
    · obtain ⟨h1, h2, h3, h4⟩ := ih ⟨r.cap, r.buf ++ [e], r.dropped, r.logs⟩ hpos
        (by simp only [List.length_append, List.length_singleton, List.length_nil, List.length_cons]; omega)
      simp only at h1 h2 h3 h4
      rw [ringPush, if_pos hlt]
      refine ⟨h1, ?_, ?_, ?_⟩
      · rw [show ({ r with buf := r.buf ++ [e] } : Ring) = ⟨r.cap, r.buf ++ [e], r.dropped, r.logs⟩ from rfl]
        rw [h2]
        have e1 : (r.buf ++ [e]) ++ rest = r.buf ++ e :: rest := by simp
        have e2 : (r.buf ++ [e]).length + rest.length - r.cap =
            r.buf.length + (e :: rest).length - r.cap := by
          simp only [List.length_append, List.length_singleton, List.length_cons, List.length_nil]
          omega
        rw [e1, e2]
      · rw [show ({ r with buf := r.buf ++ [e] } : Ring) = ⟨r.cap, r.buf ++ [e], r.dropped, r.logs⟩ from rfl]
        rw [h3]
        have e2 : (r.buf ++ [e]).length + rest.length - r.cap =
            r.buf.length + (e :: rest).length - r.cap := by
          simp only [List.length_append, List.length_singleton, List.length_cons, List.length_nil]
          omega
        rw [e2]
      · rw [show ({ r with buf := r.buf ++ [e] } : Ring) = ⟨r.cap, r.buf ++ [e], r.dropped, r.logs⟩ from rfl]
        rw [h4]
        have e2 : (r.buf ++ [e]).length + rest.length - r.cap =
            r.buf.length + (e :: rest).length - r.cap := by
          simp only [List.length_append, List.length_singleton, List.length_cons, List.length_nil]
          omega
        rw [e2]
    · have heq : r.buf.length = r.cap := le_antisymm hle (not_lt.mp hlt)
      have hbne : r.buf ≠ [] := by
        rw [← List.length_pos]
        omega
      obtain ⟨hd, tl, hbuf⟩ := List.exists_cons_of_ne_nil hbne
      have hc : tl.length + 1 = r.cap := by
        rw [hbuf] at heq
        simpa using heq
      obtain ⟨h1, h2, h3, h4⟩ := ih ⟨r.cap, r.buf.tail ++ [e], r.dropped + 1,
          r.logs ++ ["dropped 1 envelopes"]⟩ hpos
        (by
          simp only [List.length_append, List.length_singleton, List.length_cons, List.length_nil, hbuf, List.tail_cons]
          omega)
      simp only at h1 h2 h3 h4
      rw [ringPush, if_neg hlt]
      rw [show ({ r with buf := r.buf.tail ++ [e], dropped := r.dropped + 1, logs := r.logs ++ ["dropped 1 envelopes"] } : Ring) = ⟨r.cap, r.buf.tail ++ [e], r.dropped + 1, r.logs ++ ["dropped 1 envelopes"]⟩ from rfl]
      refine ⟨h1, ?_, ?_, ?_⟩
      · rw [h2, hbuf]
        have e1 : (hd :: tl).tail ++ [e] ++ rest = tl ++ e :: rest := by simp
        have e2 : ((hd :: tl).tail ++ [e]).length + rest.length - r.cap =
            rest.length := by
          simp only [List.tail_cons, List.length_append, List.length_singleton, List.length_cons, List.length_nil]
          omega
        have e3 : (hd :: tl).length + (e :: rest).length - r.cap =
            rest.length + 1 := by
          simp only [List.length_cons]
          omega
        rw [e1, e2, e3]
        rw [show (hd :: tl) ++ e :: rest = hd :: (tl ++ e :: rest) from rfl]
        rw [List.drop_succ_cons]
      · rw [h3]
        have e2 : ((hd :: tl).tail ++ [e]).length + rest.length - r.cap =
            rest.length := by
          simp only [List.tail_cons, List.length_append, List.length_singleton, List.length_cons, List.length_nil]
          omega
        have e3 : (hd :: tl).length + (e :: rest).length - r.cap =
            rest.length + 1 := by
          simp only [List.length_cons]
          omega
        rw [hbuf, e2, e3]
        omega
      · rw [h4]
        have e2 : ((hd :: tl).tail ++ [e]).length + rest.length - r.cap =
            rest.length := by
          simp only [List.tail_cons, List.length_append, List.length_singleton, List.length_cons, List.length_nil]
          omega
        have e3 : (hd :: tl).length + (e :: rest).length - r.cap =
            rest.length + 1 := by
          simp only [List.length_cons]
          omega
        rw [hbuf, e2, e3, List.replicate_succ]
        simp

end ClaimHelpers

section Claims

/-- Claim C1 (code-bug evidence): in the store under src (part_000), two
Put calls with the identical (timestamp, source) pair (1, "a") leave a
single entry keyed 1 — the second Put overwrites the first instead of
incrementing the timestamp until free (the code even comments "Only
increment if we didn't overwrite") — and the per-source entry count and
the store count are 1, not 2.  The repository's own store test
("increments the timestamp as necessary to prevent overwrites",
store_test.go:110) and the spec require N distinct entries at successive
timestamps with count N. -/
theorem c1_collision_overwrites :
    mapLookup "a"
        (((NewStore 5 10).put ⟨1, "a", none⟩ "a").put ⟨1, "a", none⟩ "a").indexes
      = some [(1, ⟨⟨1, "a", none⟩, "a"⟩)] ∧
    ((mapLookup "a"
        (((NewStore 5 10).put ⟨1, "a", none⟩ "a").put ⟨1, "a", none⟩ "a").indexes).getD
      []).length = 1 ∧
    (((NewStore 5 10).put ⟨1, "a", none⟩ "a").put ⟨1, "a", none⟩ "a").count = 1 := by
  decide

/-- Claim C2 (counterexample): the claim fails as stated on two points.
An envelope whose SourceId is "a" but was Put under index "b" is
returned by Get("b", ...), so a returned envelope need not carry the
requested source id (Get filters by the index an envelope was filed
under; the test "uses the given index" pins this behaviour).  And with
limit 0 the visitor appends the first match before the limit check
fires, so the returned slice has one element, more than limit. -/
theorem c2_counterexample :
    (((NewStore 5 10).put ⟨1, "a", none⟩ "b").get "b" 0 10 none 10
        = .ok [⟨1, "a", none⟩] ∧
      (⟨1, "a", none⟩ : Envelope).sourceId ≠ "b") ∧
    (((NewStore 5 10).put ⟨1, "a", none⟩ "a").get "a" 0 10 none 0
        = .ok [⟨1, "a", none⟩] ∧
      ¬ ((([(⟨1, "a", none⟩ : Envelope)]).length : Int) ≤ 0)) := by
  decide

/-- Claim C2 (amended): for every Get on a reachable store that returns
a slice, every returned envelope has its timestamp in [start, end) and
is stored in the per-source index of the requested source id (wrapped
with that index; its own source_id field may differ when it was Put
under a different index); the slice holds at most max(limit, 1)
elements — at most limit whenever limit ≥ 1, while for limit ≤ 0 the
first match is still returned; elements appear in strictly ascending
timestamp order; and if no index exists for that source the result is
empty. -/
theorem c2_get_bounds (s : Store) (hr : Reachable s) (idx : String)
    (startT endT : Int) (ft : Option FilterType) (limit : Int)
    (res : List Envelope) (hres : s.get idx startT endT ft limit = .ok res) :
    (∀ env ∈ res, startT ≤ env.timestamp ∧ env.timestamp < endT ∧
      ∃ t, mapLookup idx s.indexes = some t ∧ ∃ k, (k, ⟨env, idx⟩) ∈ t) ∧
    (res.length : Int) ≤ max limit 1 ∧
    res.Pairwise (fun a b => a.timestamp < b.timestamp) ∧
    (mapLookup idx s.indexes = none → res = []) :=
  get_spec (reachable_inv hr).1 idx startT endT ft limit res hres

/-- Witness for the amended C2 theorem at a concrete reachable store. -/
theorem c2_get_bounds_witness :
    (∀ env ∈ [(⟨1, "a", none⟩ : Envelope)], (0 : Int) ≤ env.timestamp ∧
      env.timestamp < 10 ∧
      ∃ t, mapLookup "a" ((NewStore 5 10).put ⟨1, "a", none⟩ "a").indexes
          = some t ∧ ∃ k, (k, ⟨env, "a"⟩) ∈ t) ∧
    (([(⟨1, "a", none⟩ : Envelope)].length : Int)) ≤ max 10 1 ∧
    ([(⟨1, "a", none⟩ : Envelope)]).Pairwise
      (fun a b => a.timestamp < b.timestamp) ∧
    (mapLookup "a" ((NewStore 5 10).put ⟨1, "a", none⟩ "a").indexes = none →
      [(⟨1, "a", none⟩ : Envelope)] = []) :=
  c2_get_bounds _ (Reachable.put _ _ (Reachable.new 5 10)) "a" 0 10 none 10
    [⟨1, "a", none⟩] (by decide)

/-- Claim C3 (counterexample): with max_per_source = 0 a single Put
leaves an index holding one entry, exceeding the configured per-source
capacity (the eviction guard removes nothing from the empty tree and the
insertion then overshoots), so the per-source bound of the claim fails
as stated for stores configured with a non-positive capacity. -/
theorem c3_counterexample :
    ¬ (∀ q ∈ ((NewStore 5 0).put ⟨1, "a", none⟩ "a").indexes,
        ((q.2.length : Int)) ≤ ((NewStore 5 0).put ⟨1, "a", none⟩ "a").maxPerSource) := by
  decide

/-- Claim C3 (amended): for every store reachable by Put calls whose
configured per-source capacity is at least one, after each Put every
source's index holds at most max_per_source entries, and the store's
count field equals the sum of the sizes of all per-source indexes. -/
theorem c3_capacity_and_count (s : Store) (hr : Reachable s)
    (hmax : 1 ≤ s.maxPerSource) :
    (∀ q ∈ s.indexes, (q.2.length : Int) ≤ s.maxPerSource) ∧
    s.count = sumLens s.indexes := by
  obtain ⟨hI, -⟩ := reachable_inv hr
  exact ⟨hI.maxBound hmax, hI.countEq⟩

/-- Witness for the amended C3 theorem at a concrete reachable store. -/
theorem c3_capacity_and_count_witness :
    1 ≤ ((NewStore 2 2).put ⟨1, "a", none⟩ "a").maxPerSource ∧
    ((∀ q ∈ ((NewStore 2 2).put ⟨1, "a", none⟩ "a").indexes,
        (q.2.length : Int) ≤ ((NewStore 2 2).put ⟨1, "a", none⟩ "a").maxPerSource) ∧
      ((NewStore 2 2).put ⟨1, "a", none⟩ "a").count =
        sumLens ((NewStore 2 2).put ⟨1, "a", none⟩ "a").indexes) :=
  ⟨by decide, c3_capacity_and_count _ (Reachable.put _ _ (Reachable.new 2 2))
    (by decide)⟩

/-- Claim C4: a reachable store never exceeds its cap after Put returns
(count ≤ max(size, 0); each Put adds at most one envelope so the single
removal per truncate call realises "while count > size", and this
version has no pruning quota), and whenever the insertion phase of a Put
leaves count above size, the closing truncation removes exactly the
envelope whose timestamp is the globally minimal key across all sources:
the count drops by one, the Expired counter rises by one, the removed
entry is the minimum of its index, the index is deleted from the map if
that removal empties it, and otherwise remains with its tail and is
re-registered in the oldestValueTree under its new minimum. -/
theorem c4_truncate_removes_global_min (s : Store) (hr : Reachable s)
    (e : Envelope) (idx : String)
    (hgt : s.size < (s.putRaw e idx).count) :
    s.count ≤ max s.size 0 ∧
    ∃ name t key w,
      mapLookup name (s.putRaw e idx).indexes = some t ∧
      t.head? = some (key, w) ∧
      (∀ q ∈ (s.putRaw e idx).indexes, ∀ p ∈ q.2, key ≤ p.1) ∧
      (s.put e idx).count = (s.putRaw e idx).count - 1 ∧
      (s.put e idx).expired = (s.putRaw e idx).expired + 1 ∧
      (t.tail = [] → mapLookup name (s.put e idx).indexes = none) ∧
      (t.tail ≠ [] →
        mapLookup name (s.put e idx).indexes = some t.tail ∧
        ∃ p ∈ (s.put e idx).ovt, name ∈ p.2 ∧ idxMinKey? t.tail = some p.1) := by
  obtain ⟨hI, hle⟩ := reachable_inv hr
  have hIm := putRaw_inv hI e idx
  have hpos := putRaw_count_pos hI e idx
  have hgt' : (s.putRaw e idx).size < (s.putRaw e idx).count := by
    rw [putRaw_size]
    exact hgt
  obtain ⟨name, t, key, w, h1, h2, h3, h4, h5, h6, h7⟩ :=
    truncate_spec hIm hgt' hpos
  exact ⟨hle, name, t, key, w, h1, h2, h3, h4, h5, h6, h7⟩

/-- Witness for the C4 theorem at a concrete reachable store whose cap
is exceeded by the insertion phase of the next Put. -/
theorem c4_truncate_removes_global_min_witness :
    ((NewStore 1 10).put ⟨1, "a", none⟩ "a").size <
      (((NewStore 1 10).put ⟨1, "a", none⟩ "a").putRaw ⟨2, "a", none⟩ "a").count ∧
    (((NewStore 1 10).put ⟨1, "a", none⟩ "a").count ≤
      max ((NewStore 1 10).put ⟨1, "a", none⟩ "a").size 0 ∧
    ∃ name t key w,
      mapLookup name
        (((NewStore 1 10).put ⟨1, "a", none⟩ "a").putRaw ⟨2, "a", none⟩ "a").indexes
          = some t ∧
      t.head? = some (key, w) ∧
      (∀ q ∈ (((NewStore 1 10).put ⟨1, "a", none⟩ "a").putRaw
          ⟨2, "a", none⟩ "a").indexes, ∀ p ∈ q.2, key ≤ p.1) ∧
      (((NewStore 1 10).put ⟨1, "a", none⟩ "a").put ⟨2, "a", none⟩ "a").count =
        (((NewStore 1 10).put ⟨1, "a", none⟩ "a").putRaw
          ⟨2, "a", none⟩ "a").count - 1 ∧
      (((NewStore 1 10).put ⟨1, "a", none⟩ "a").put ⟨2, "a", none⟩ "a").expired =
        (((NewStore 1 10).put ⟨1, "a", none⟩ "a").putRaw
          ⟨2, "a", none⟩ "a").expired + 1 ∧
      (t.tail = [] → mapLookup name
        (((NewStore 1 10).put ⟨1, "a", none⟩ "a").put
          ⟨2, "a", none⟩ "a").indexes = none) ∧
      (t.tail ≠ [] →
        mapLookup name (((NewStore 1 10).put ⟨1, "a", none⟩ "a").put
          ⟨2, "a", none⟩ "a").indexes = some t.tail ∧
        ∃ p ∈ (((NewStore 1 10).put ⟨1, "a", none⟩ "a").put
            ⟨2, "a", none⟩ "a").ovt,
          name ∈ p.2 ∧ idxMinKey? t.tail = some p.1)) :=
  ⟨by decide, c4_truncate_removes_global_min _
    (Reachable.put _ _ (Reachable.new 1 10)) ⟨2, "a", none⟩ "a" (by decide)⟩

/-- Claim C5: for every store whose index for source "a" holds exactly
the envelopes with timestamps 1, 2, 3, 4 (filed under "a"), the
descending Get over the full window with limit 3 returns exactly the
envelopes with timestamps 4, 3, 2 in that order.  The descending Get is
modelled from the spec (see `Store.getDesc`): the six-argument Get the
test exercises is not in the sources under src. -/
theorem c5_descending_read (s : Store) (t : Index)
    (hlk : mapLookup "a" s.indexes = some t)
    (hshape : t.map (fun p => (p.1, p.2.index, p.2.e.timestamp)) =
      [(1, "a", 1), (2, "a", 2), (3, "a", 3), (4, "a", 4)]) :
    ∃ res, s.getDesc "a" 0 9999 none 3 = .ok res ∧
      res.map Envelope.timestamp = [4, 3, 2] := by
  rcases t with _ | ⟨⟨k1, w1⟩, _ | ⟨⟨k2, w2⟩, _ | ⟨⟨k3, w3⟩,
    _ | ⟨⟨k4, w4⟩, _ | ⟨p5, trest⟩⟩⟩⟩⟩ <;> simp at hshape
  obtain ⟨⟨h1k, h1i, h1t⟩, ⟨h2k, h2i, h2t⟩, ⟨h3k, h3i, h3t⟩, h4k, h4i, h4t⟩ :=
    hshape
  subst h1k h2k h3k h4k
  refine ⟨[w4.e, w3.e, w2.e], ?_, ?_⟩
  case _ =>
    unfold Store.getDesc
    rw [hlk]
    simp [descLoop, checkEnvelopeType, h1i, h2i, h3i, h4i]
  case _ =>
    simp [h4t, h3t, h2t]

/-- Witness for the C5 theorem at the store built by four Puts for
source "a" at timestamps 1..4. -/
theorem c5_descending_read_witness :
    mapLookup "a" (((((NewStore 10 10).put ⟨1, "a", some .log⟩ "a").put
        ⟨2, "a", some .log⟩ "a").put ⟨3, "a", some .log⟩ "a").put
        ⟨4, "a", some .log⟩ "a").indexes =
      some [(1, ⟨⟨1, "a", some .log⟩, "a"⟩), (2, ⟨⟨2, "a", some .log⟩, "a"⟩),
        (3, ⟨⟨3, "a", some .log⟩, "a"⟩), (4, ⟨⟨4, "a", some .log⟩, "a"⟩)] ∧
    ∃ res, (((((NewStore 10 10).put ⟨1, "a", some .log⟩ "a").put
        ⟨2, "a", some .log⟩ "a").put ⟨3, "a", some .log⟩ "a").put
        ⟨4, "a", some .log⟩ "a").getDesc "a" 0 9999 none 3 = .ok res ∧
      res.map Envelope.timestamp = [4, 3, 2] :=
  ⟨by decide, c5_descending_read _
    [(1, ⟨⟨1, "a", some .log⟩, "a"⟩), (2, ⟨⟨2, "a", some .log⟩, "a"⟩),
      (3, ⟨⟨3, "a", some .log⟩, "a"⟩), (4, ⟨⟨4, "a", some .log⟩, "a"⟩)]
    (by decide) (by decide)⟩

/-- Claim C6: the peer call issued for every flushed batch by
`BatchedIngressClient.write` carries LocalOnly = true, the full batch,
and a 3-second (3,000,000,000 ns) context timeout; an error from the
peer RPC only produces a log line prefixed "failed to write envelope"
while the function returns normally, so the flusher loop in `start`
continues with the next batch. -/
theorem c6_batched_write_call (batch : List Envelope)
    (send : PeerCall → Except String SendResponse) :
    (writeCall batch).req.localOnly = true ∧
    (writeCall batch).timeoutNs = 3 * 1000000000 ∧
    (writeCall batch).req.envelopes = batch ∧
    write send batch = writeHandle (send (writeCall batch)) ∧
    (∀ msg, writeHandle (.error msg) = ["failed to write envelope: " ++ msg]) ∧
    (∀ resp, writeHandle (.ok resp) = []) :=
  ⟨rfl, rfl, rfl, rfl, fun _ => rfl, fun _ => rfl⟩

/-- Claim C7: `BatchedIngressClient.Send` pushes every envelope of the
request onto the bounded ring and returns the empty SendResponse with a
nil error unconditionally; the ring installed by
`NewBatchedIngressClient` has capacity 10000; and pushing onto a ring
within capacity keeps it within capacity, retaining exactly the newest
entries, adding every overflow drop to the dropped counter and logging
one summary line per drop. -/
theorem c7_send_nonblocking (r : Ring) (req : SendRequest)
    (hpos : 0 < r.cap) (hlen : r.buf.length ≤ r.cap) :
    newRing.cap = 10000 ∧
    (clientSend r req).2.1 = SendResponse.mk ∧
    (clientSend r req).2.2 = none ∧
    (clientSend r req).1.cap = r.cap ∧
    (clientSend r req).1.buf =
      (r.buf ++ req.envelopes).drop
        (r.buf.length + req.envelopes.length - r.cap) ∧
    (clientSend r req).1.buf.length ≤ r.cap ∧
    (clientSend r req).1.dropped =
      r.dropped + (r.buf.length + req.envelopes.length - r.cap) ∧
    (clientSend r req).1.logs = r.logs ++
      List.replicate (r.buf.length + req.envelopes.length - r.cap)
        "dropped 1 envelopes" := by
  obtain ⟨h1, h2, h3, h4⟩ := ringPush_spec req.envelopes r hpos hlen
  refine ⟨rfl, rfl, rfl, h1, h2, ?_, h3, h4⟩
  show (req.envelopes.foldl ringPush r).buf.length ≤ r.cap
  rw [h2, List.length_drop]
  simp only [List.length_append]
  omega

/-- Witness for the C7 theorem on the freshly installed ring. -/
theorem c7_send_nonblocking_witness :
    0 < newRing.cap ∧ newRing.buf.length ≤ newRing.cap ∧
    (newRing.cap = 10000 ∧
    (clientSend newRing ⟨true, [⟨1, "a", none⟩]⟩).2.1 = SendResponse.mk ∧
    (clientSend newRing ⟨true, [⟨1, "a", none⟩]⟩).2.2 = none ∧
    (clientSend newRing ⟨true, [⟨1, "a", none⟩]⟩).1.cap = newRing.cap ∧
    (clientSend newRing ⟨true, [⟨1, "a", none⟩]⟩).1.buf =
      (newRing.buf ++ (⟨true, [⟨1, "a", none⟩]⟩ : SendRequest).envelopes).drop
        (newRing.buf.length +
          (⟨true, [⟨1, "a", none⟩]⟩ : SendRequest).envelopes.length -
          newRing.cap) ∧
    (clientSend newRing ⟨true, [⟨1, "a", none⟩]⟩).1.buf.length ≤ newRing.cap ∧
    (clientSend newRing ⟨true, [⟨1, "a", none⟩]⟩).1.dropped =
      newRing.dropped + (newRing.buf.length +
        (⟨true, [⟨1, "a", none⟩]⟩ : SendRequest).envelopes.length -
        newRing.cap) ∧
    (clientSend newRing ⟨true, [⟨1, "a", none⟩]⟩).1.logs = newRing.logs ++
      List.replicate (newRing.buf.length +
        (⟨true, [⟨1, "a", none⟩]⟩ : SendRequest).envelopes.length -
        newRing.cap) "dropped 1 envelopes") :=
  ⟨by decide, by decide,
    c7_send_nonblocking newRing ⟨true, [⟨1, "a", none⟩]⟩ (by decide) (by decide)⟩

set_option maxRecDepth 100000 in
/-- Claim C8: the routing hash installed by `setupRouting` is CRC-64
with the ECMA polynomial over the UTF-8 bytes of the source id (for the
ASCII source ids involved, the UTF-8 bytes are exactly the code points,
listed explicitly below), and its values on "source-0" and "source-1"
are the two constants that the tests and the spec record. -/
theorem c8_crc64_ecma_hash :
    ("source-0".data.map Char.toNat = [115, 111, 117, 114, 99, 101, 45, 48]) ∧
    ("source-1".data.map Char.toNat = [115, 111, 117, 114, 99, 101, 45, 49]) ∧
    sourceHash "source-0" = 7700738999732113484 ∧
    sourceHash "source-1" = 15704273932878139171 := by
  decide

/-- Claim C9: on every reachable store (so after every Put, each of
which ends in a truncation), every per-source index in the indexes map
is non-empty and is registered in the oldestValueTree exactly once — the
registered key being its current minimum timestamp — and conversely
every tree registered in the oldestValueTree is present in the indexes
map. -/
theorem c9_index_ovt_sync (s : Store) (hr : Reachable s) :
    (∀ q ∈ s.indexes, q.2 ≠ [] ∧
      (ovtNames s.ovt).count q.1 = 1 ∧
      ∃ p ∈ s.ovt, q.1 ∈ p.2 ∧ idxMinKey? q.2 = some p.1) ∧
    (∀ p ∈ s.ovt, ∀ n ∈ p.2, ∃ t, mapLookup n s.indexes = some t) := by
  obtain ⟨hI, -⟩ := reachable_inv hr
  constructor
  · intro q hq
    obtain ⟨p, hp, hqp⟩ := hI.regAll q hq
    refine ⟨(hI.good q hq).1, ?_, ?_⟩
    · exact List.count_eq_one_of_mem hI.namesNodup (mem_ovtNames.mpr ⟨p, hp, hqp⟩)
    · obtain ⟨t, hlk, hmin⟩ := hI.regValid p hp q.1 hqp
      have hq2 : mapLookup q.1 s.indexes = some q.2 :=
        mem_mapLookup hI.keysNodup hq
      rw [hq2] at hlk
      obtain rfl : q.2 = t := by injection hlk
      exact ⟨p, hp, hqp, hmin⟩
  · intro p hp n hn
    obtain ⟨t, hlk, -⟩ := hI.regValid p hp n hn
    exact ⟨t, hlk⟩

/-- Witness for the C9 theorem at a concrete reachable store. -/
theorem c9_index_ovt_sync_witness :
    (∀ q ∈ ((NewStore 5 10).put ⟨1, "a", none⟩ "a").indexes, q.2 ≠ [] ∧
      (ovtNames ((NewStore 5 10).put ⟨1, "a", none⟩ "a").ovt).count q.1 = 1 ∧
      ∃ p ∈ ((NewStore 5 10).put ⟨1, "a", none⟩ "a").ovt, q.1 ∈ p.2 ∧
        idxMinKey? q.2 = some p.1) ∧
    (∀ p ∈ ((NewStore 5 10).put ⟨1, "a", none⟩ "a").ovt, ∀ n ∈ p.2,
      ∃ t, mapLookup n ((NewStore 5 10).put ⟨1, "a", none⟩ "a").indexes = some t) :=
  c9_index_ovt_sync _ (Reachable.put _ _ (Reachable.new 5 10))

/-- Claim C10: for every filter that is nil or one of the five supported
kind markers (anything except the `other` dynamic type), the "unknown
type" panic branch of `checkEnvelopeType` is unreachable — the check
returns a Boolean — and `Store.get` is total, returning a result for
every store, window and limit; with a nil filter every envelope kind is
accepted. -/
theorem c10_filter_totality (e : Envelope) (ft : Option FilterType)
    (h : ft ≠ some FilterType.other) (s : Store) (idx : String)
    (startT endT limit : Int) :
    (∃ b, checkEnvelopeType e ft = .ok b) ∧
    checkEnvelopeType e none = .ok true ∧
    ∃ res, s.get idx startT endT ft limit = .ok res :=
  ⟨checkEnvelopeType_ok h e, rfl, get_total s idx startT endT h limit⟩

/-- Witness for the C10 theorem at a concrete filter, envelope and
store. -/
theorem c10_filter_totality_witness :
    (some FilterType.log ≠ some FilterType.other) ∧
    ((∃ b, checkEnvelopeType ⟨1, "a", none⟩ (some FilterType.log) = .ok b) ∧
      checkEnvelopeType ⟨1, "a", none⟩ none = .ok true ∧
      ∃ res, (NewStore 5 10).get "a" 0 10 (some FilterType.log) 5 = .ok res) :=
  ⟨by decide, c10_filter_totality ⟨1, "a", none⟩ (some FilterType.log) (by decide)
    (NewStore 5 10) "a" 0 10 5⟩

end Claims

end LogCache
